import Mathlib

/-!
Verification of the llm-inferra inference gateway core against its design
specification.

The Go sources are shallowly embedded: byte strings become `List Char`,
Go structs become Lean structures, pointer-typed optional fields become
`Option`, `float64` money values are idealized as `ℚ`, and machine `int`
values as `Int`.  Fallible operations return `Option`.  Each definition is
translated from the corresponding Go function (named in its doc comment).
-/

set_option maxHeartbeats 1000000

/-- Byte strings of the Go source are modelled as lists of characters. -/
abbrev Bytes := List Char

/-- The ASCII whitespace characters trimmed by Go's `strings.TrimSpace`
(`unicode.IsSpace` restricted to the ASCII range, which is all that occurs
in SSE data). -/
def isWsChar (c : Char) : Bool :=
  c == ' ' || c == '\t' || c == '\n' || c == '\r' || c == '\x0b' || c == '\x0c'

/-- Go `strings.TrimSpace`: drop whitespace from both ends. -/
def trimSpace (l : Bytes) : Bytes :=
  ((l.dropWhile isWsChar).reverse.dropWhile isWsChar).reverse

/-- Go `strings.Split(s, "\n")`: split on every newline.  `Split` of the
empty string is `[""]`. -/
def splitNL : Bytes → List Bytes
  | [] => [[]]
  | c :: rest =>
    if c = '\n' then [] :: splitNL rest
    else
      match splitNL rest with
      | [] => [[c]]
      | h :: t => (c :: h) :: t

/-- Go `strings.Split(s, "\n\n")`: greedy left-to-right split on the
two-character separator, as used by `AnthropicProvider.parseSSEEvents`. -/
def splitNN : Bytes → List Bytes
  | [] => [[]]
  | [c] => [[c]]
  | c :: d :: rest =>
    if c = '\n' ∧ d = '\n' then [] :: splitNN rest
    else
      match splitNN (d :: rest) with
      | [] => [[c]]
      | h :: t => (c :: h) :: t

/-- `AnthropicProvider.parseSSEEvents`: splits SSE text on blank-line
separators (`strings.Split(text, "\n\n")`). -/
def parseSSEEvents (text : Bytes) : List Bytes := splitNN text

/-- Go `strings.HasSuffix(text, "\n\n")`. -/
def hasSuffixNN (text : Bytes) : Bool := ['\n', '\n'].isSuffixOf text

/-- Go `strings.Contains(s, sub)`: substring test, by scanning for a
position where `sub` is a prefix of the remaining text. -/
def containsSub (s sub : Bytes) : Bool :=
  match s with
  | [] => sub.isPrefixOf ([] : Bytes)
  | _ :: rest => sub.isPrefixOf s || containsSub rest sub

/-- The token-usage block of the neutral response
(`models.ChatCompletionUsage`; the prompt/completion fields duplicate
input/output for OpenAI compatibility). -/
structure ChatCompletionUsage where
  input_tokens : Int
  output_tokens : Int
  total_tokens : Int
  prompt_tokens : Int
  completion_tokens : Int
  deriving Repr, DecidableEq

/-- Model pricing fields of `models.LLMModel` used by the cost calculator;
`float64` prices are idealized as rationals. -/
structure LLMModel where
  input_cost_per_1k : ℚ
  output_cost_per_1k : ℚ
  deriving Repr, DecidableEq

/-- `AnthropicProvider.CalculateCost`: input cost, output cost and their
sum, from token counts and the model's per-1K prices. -/
def CalculateCost (usage : ChatCompletionUsage) (model : LLMModel) : ℚ × ℚ × ℚ :=
  let inputCost := (usage.input_tokens : ℚ) * model.input_cost_per_1k / 1000
  let outputCost := (usage.output_tokens : ℚ) * model.output_cost_per_1k / 1000
  (inputCost, outputCost, inputCost + outputCost)

/-- JSON values as parsed by `encoding/json` for the payloads the relay
inspects.  The embedded parser covers the JSON subset that the gateway's
event payloads use: `null`, booleans, integer numbers, strings without
escape sequences, arrays and objects.  A payload outside this subset fails
to parse, and the relay treats an unparseable payload as opaque content
(it is forwarded verbatim), which is also what the Go code does with any
payload that is not a well-formed terminal usage event. -/
inductive Json where
  | null
  | bool (b : Bool)
  | num (n : Int)
  | str (s : Bytes)
  | arr (elems : List Json)
  | obj (fields : List (Bytes × Json))
  deriving Repr, Inhabited

/-- Skip JSON inter-token whitespace. -/
def skipWs (l : Bytes) : Bytes := l.dropWhile isWsChar

/-- Characters allowed in an (escape-free) JSON string body. -/
def isStrChar (c : Char) : Bool := !(c == '"' || c == '\\')

/-- Parse a JSON string body after the opening quote; returns the body and
the text after the closing quote. -/
def parseStrBody (l : Bytes) : Option (Bytes × Bytes) :=
  let rest := l.dropWhile isStrChar
  if rest.head? = some '"' then some (l.takeWhile isStrChar, rest.tail) else none

/-- Value of a decimal digit character. -/
def digitVal (c : Char) : Nat := c.toNat - 48

/-- Decimal value of a digit run (most significant first). -/
def bytesToNat (l : Bytes) : Nat := l.foldl (fun a c => a * 10 + digitVal c) 0

/-- Parse an unsigned JSON integer; fails on an empty digit run and on a
fraction or exponent part (which `json.Unmarshal` could not decode into
the Go `int` fields the relay reads). -/
def parseNatNum (l : Bytes) : Option (Nat × Bytes) :=
  let ds := l.takeWhile Char.isDigit
  if ds.isEmpty then none
  else
    let rest := l.dropWhile Char.isDigit
    if rest.head? = some '.' ∨ rest.head? = some 'e' ∨ rest.head? = some 'E' then none
    else some (bytesToNat ds, rest)

/-- Parse a JSON integer with optional leading minus sign. -/
def parseIntNum (l : Bytes) : Option (Int × Bytes) :=
  if l.head? = some '-' then (parseNatNum l.tail).map (fun p => (-(p.1 : Int), p.2))
  else (parseNatNum l).map (fun p => ((p.1 : Int), p.2))

mutual

/-- Fuel-bounded recursive-descent JSON value parser. -/
def parseVal : Nat → Bytes → Option (Json × Bytes)
  | 0, _ => none
  | fuel + 1, l =>
    match skipWs l with
    | [] => none
    | c :: r =>
      if c = '{' then (parseFieldList fuel true r).map (fun p => (Json.obj p.1, p.2))
      else if c = '[' then (parseElemList fuel true r).map (fun p => (Json.arr p.1, p.2))
      else if c = '"' then (parseStrBody r).map (fun p => (Json.str p.1, p.2))
      else if c = 't' then
        (if ['r', 'u', 'e'].isPrefixOf r then some (.bool true, r.drop 3) else none)
      else if c = 'f' then
        (if ['a', 'l', 's', 'e'].isPrefixOf r then some (.bool false, r.drop 4) else none)
      else if c = 'n' then
        (if ['u', 'l', 'l'].isPrefixOf r then some (.null, r.drop 3) else none)
      else if c = '-' ∨ c.isDigit then
        (parseIntNum (c :: r)).map (fun p => (Json.num p.1, p.2))
      else none

/-- Object interior after the opening brace; `allowEnd` is false right
after a comma, so a trailing comma is rejected as `encoding/json` does. -/
def parseFieldList : Nat → Bool → Bytes → Option (List (Bytes × Json) × Bytes)
  | 0, _, _ => none
  | fuel + 1, allowEnd, l =>
    match skipWs l with
    | [] => none
    | c :: r =>
      if c = '}' then (if allowEnd then some ([], r) else none)
      else if c = '"' then
        match parseStrBody r with
        | none => none
        | some (key, r1) =>
          match skipWs r1 with
          | [] => none
          | c1 :: r2 =>
            if c1 = ':' then
              match parseVal fuel r2 with
              | none => none
              | some (v, r3) =>
                match skipWs r3 with
                | [] => none
                | c2 :: r4 =>
                  if c2 = ',' then
                    (parseFieldList fuel false r4).map (fun p => ((key, v) :: p.1, p.2))
                  else if c2 = '}' then some ([(key, v)], r4)
                  else none
            else none
      else none

/-- Array interior after the opening bracket. -/
def parseElemList : Nat → Bool → Bytes → Option (List Json × Bytes)
  | 0, _, _ => none
  | fuel + 1, allowEnd, l =>
    match skipWs l with
    | [] => none
    | c :: _ =>
      if c = ']' ∧ allowEnd then some ([], (skipWs l).tail)
      else
        match parseVal fuel l with
        | none => none
        | some (v, r1) =>
          match skipWs r1 with
          | [] => none
          | c1 :: r2 =>
            if c1 = ',' then (parseElemList fuel false r2).map (fun p => (v :: p.1, p.2))
            else if c1 = ']' then some ([v], r2)
            else none

end

/-- `json.Unmarshal`'s driver: one full JSON value with nothing but
whitespace after it.  The fuel bound `length + 1` always suffices because
every recursive descent consumes input. -/
def parseJson (l : Bytes) : Option Json :=
  match parseVal (l.length + 1) l with
  | some (v, rest) => if (skipWs rest).isEmpty then some v else none
  | none => none

/-- Object field lookup; a later duplicate key overwrites an earlier one,
as in `encoding/json`. -/
def lookupField (fields : List (Bytes × Json)) (key : Bytes) : Option Json :=
  fields.foldl (fun acc f => if f.1 = key then some f.2 else acc) none

/-- Unmarshal an object field into a Go `string`: absent or `null` leaves
the zero value `""`; a string sets it; any other shape is an unmarshal
error. -/
def goStringField (fields : List (Bytes × Json)) (key : Bytes) : Option Bytes :=
  match lookupField fields key with
  | none => some []
  | some .null => some []
  | some (.str s) => some s
  | some _ => none

/-- Unmarshal an object field into a Go `int`: absent or `null` leaves the
zero value; a number sets it; any other shape is an unmarshal error. -/
def goIntField (fields : List (Bytes × Json)) (key : Bytes) : Option Int :=
  match lookupField fields key with
  | none => some 0
  | some .null => some 0
  | some (.num n) => some n
  | some _ => none

/-- The `input_tokens`/`output_tokens` pair of a streaming usage block. -/
structure StreamUsage where
  input_tokens : Int
  output_tokens : Int
  deriving Repr, DecidableEq

/-- `AnthropicStreamEvent`, the struct `processSSEEvent` unmarshals into:
a `type` string, an optional top-level `usage` block and an optional
`message` object with its own optional `usage` block (the raw `delta`
field is never read and needs no representation). -/
structure AnthropicStreamEvent where
  type : Bytes
  usage : Option StreamUsage
  message : Option (Option StreamUsage)
  deriving Repr, DecidableEq

/-- Unmarshal a JSON value into a `*struct` usage pointer: `null` leaves
the pointer nil, an object fills the token fields. -/
def unmarshalStreamUsage (j : Json) : Option (Option StreamUsage) :=
  match j with
  | .null => some none
  | .obj fs => do
    let i ← goIntField fs "input_tokens".toList
    let o ← goIntField fs "output_tokens".toList
    some (some ⟨i, o⟩)
  | _ => none

/-- `json.Unmarshal` of an event payload into `AnthropicStreamEvent`. -/
def unmarshalStreamEvent (j : Json) : Option AnthropicStreamEvent :=
  match j with
  | .null => some ⟨[], none, none⟩
  | .obj fs => do
    let ty ← goStringField fs "type".toList
    let u ← match lookupField fs "usage".toList with
      | none => some none
      | some uj => unmarshalStreamUsage uj
    let m ← match lookupField fs "message".toList with
      | none => some none
      | some .null => some none
      | some (.obj mfs) =>
        match lookupField mfs "usage".toList with
        | none => some (some none)
        | some uj => (unmarshalStreamUsage uj).map some
      | some _ => none
    some ⟨ty, u, m⟩
  | _ => none

/-- The anonymous struct `extractUsageFromSSE` unmarshals into: a `type`
string and a non-pointer `usage` block with three token fields. -/
structure UsageEventPayload where
  type : Bytes
  input_tokens : Int
  output_tokens : Int
  total_tokens : Int
  deriving Repr, DecidableEq

/-- `json.Unmarshal` of an event payload into the usage-event struct. -/
def unmarshalUsageEvent (j : Json) : Option UsageEventPayload :=
  match j with
  | .null => some ⟨[], 0, 0, 0⟩
  | .obj fs => do
    let ty ← goStringField fs "type".toList
    match lookupField fs "usage".toList with
    | none => some ⟨ty, 0, 0, 0⟩
    | some .null => some ⟨ty, 0, 0, 0⟩
    | some (.obj ufs) => do
      let i ← goIntField ufs "input_tokens".toList
      let o ← goIntField ufs "output_tokens".toList
      let t ← goIntField ufs "total_tokens".toList
      some ⟨ty, i, o, t⟩
    | some _ => none
  | _ => none

/-- Fuel-bounded digit rendering (the fuel only bounds the recursion
depth; any fuel above the digit count gives the same result). -/
def renderNatAux : Nat → Nat → Bytes
  | 0, _ => []
  | fuel + 1, n =>
    if n < 10 then [Char.ofNat (48 + n)]
    else renderNatAux fuel (n / 10) ++ [Char.ofNat (48 + n % 10)]

/-- Decimal rendering of a natural number, as `json.Marshal` renders an
`int` (most significant digit first, `"0"` for zero). -/
def renderNat (n : Nat) : Bytes := renderNatAux (n + 1) n

/-- Decimal rendering of an integer. -/
def renderInt (i : Int) : Bytes :=
  if i < 0 then '-' :: renderNat (-i).toNat else renderNat i.toNat

/-- The JSON body `json.Marshal` produces for the synthetic usage event
built by `processSSEEvent` (map keys serialize in sorted order: `type`
before `usage`; the token keys are already sorted). -/
def usageJsonBytes (i o : Int) : Bytes :=
  "\x7b\"type\":\"usage_update\",\"usage\":\x7b\"input_tokens\":".toList
    ++ (renderInt i
    ++ (",\"output_tokens\":".toList
    ++ (renderInt o
    ++ (",\"total_tokens\":".toList
    ++ (renderInt (i + o)
    ++ "\x7d\x7d".toList)))))

/-- The `data: ` line marker of SSE framing. -/
def dataMark : Bytes := "data: ".toList

/-- The `[DONE]` sentinel skipped by `processSSEEvent`. -/
def doneMark : Bytes := "[DONE]".toList

/-- The vendor's terminal event type. -/
def msgStopType : Bytes := "message_stop".toList

/-- The synthetic internal usage event type. -/
def usageUpdateType : Bytes := "usage_update".toList

/-- One output SSE frame: `fmt.Sprintf("data: %s\n\n", data)`. -/
def dataFrame (data : Bytes) : Bytes := dataMark ++ data ++ ['\n', '\n']

/-- The full synthetic usage event frame returned by `processSSEEvent`
for a terminal usage summary. -/
def usageUpdateFrame (i o : Int) : Bytes := dataFrame (usageJsonBytes i o)

/-- The line scan of `AnthropicProvider.processSSEEvent`: the first
`data: ` line decides the result; empty and `[DONE]` payloads are
skipped; a `message_stop` payload carrying a message usage block is
replaced by the synthetic usage event; any other payload is re-framed
unchanged. -/
def processDataLines : List Bytes → Option Bytes
  | [] => none
  | line :: rest =>
    if dataMark.isPrefixOf line then
      let data := line.drop 6
      if data = [] ∨ data = doneMark then processDataLines rest
      else
        match parseJson data with
        | some j =>
          match unmarshalStreamEvent j with
          | some ev =>
            match ev.message with
            | some (some u) =>
              if ev.type = msgStopType then
                some (usageUpdateFrame u.input_tokens u.output_tokens)
              else some (dataFrame data)
            | _ => some (dataFrame data)
          | none => some (dataFrame data)
        | none => some (dataFrame data)
    else processDataLines rest

/-- `AnthropicProvider.processSSEEvent`. -/
def processSSEEvent (eventText : Bytes) : Option Bytes :=
  processDataLines (splitNL (trimSpace eventText))

/-- The line scan of `LLMService.extractUsageFromSSE`: the first `data: `
line whose payload parses with type `usage_update` yields the captured
usage (prompt/completion duplicating input/output); all other lines are
passed over. -/
def extractDataLines : List Bytes → Option ChatCompletionUsage
  | [] => none
  | line :: rest =>
    if dataMark.isPrefixOf line then
      let jsonData := line.drop 6
      match parseJson jsonData with
      | some j =>
        match unmarshalUsageEvent j with
        | some p =>
          if p.type = usageUpdateType then
            some ⟨p.input_tokens, p.output_tokens, p.total_tokens,
                  p.input_tokens, p.output_tokens⟩
          else extractDataLines rest
        | none => extractDataLines rest
      | none => extractDataLines rest
    else extractDataLines rest

/-- `LLMService.extractUsageFromSSE`. -/
def extractUsageFromSSE (data : Bytes) : Option ChatCompletionUsage :=
  if containsSub data usageUpdateType then extractDataLines (splitNL (trimSpace data))
  else none

/-- Composite per-event behavior of the streaming pipeline for one
complete upstream event: `processSSEEvent` (provider goroutine) feeds the
stream channel, and the orchestrator's wrapper goroutine either captures
usage from the item (`extractUsageFromSSE`, withholding it from the
client) or forwards the item.  Returns (bytes forwarded to the caller,
usage captured internally). -/
def relayEvent (eventText : Bytes) : Option Bytes × Option ChatCompletionUsage :=
  match processSSEEvent eventText with
  | none => (none, none)
  | some d =>
    match extractUsageFromSSE d with
    | some u => (none, some u)
    | none => (some d, none)

/-- Whether a payload is a usage_update-typed JSON event: it parses and
its `type` field is `usage_update`.  This is the claim's notion of the
event type the caller must never see. -/
def isUsageUpdatePayload (data : Bytes) : Bool :=
  match parseJson data with
  | some j =>
    match unmarshalUsageEvent j with
    | some p => p.type = usageUpdateType
    | none => false
  | none => false

/-- Whether any `data: ` line of an SSE frame carries a
usage_update-typed payload. -/
def isUsageUpdateFrame (b : Bytes) : Bool :=
  (splitNL (trimSpace b)).any
    (fun line => dataMark.isPrefixOf line && isUsageUpdatePayload (line.drop 6))

/-- What a payload must look like for `processSSEEvent` to treat it as
the vendor's terminal usage summary: it parses as a stream event of type
`message_stop` whose message carries a usage block.  Returns that usage
block. -/
def terminalUsageOf (data : Bytes) : Option StreamUsage :=
  match parseJson data with
  | some j =>
    match unmarshalStreamEvent j with
    | some ev =>
      match ev.message with
      | some (some u) => if ev.type = msgStopType then some u else none
      | _ => none
    | none => none
  | none => none

/-- One chat message of the neutral request (`models.ChatMessage`). -/
structure ChatMessage where
  role : Bytes
  content : Bytes
  deriving Repr, DecidableEq

/-- The neutral request (`models.ChatCompletionRequest`), with the fields
the Anthropic adapter reads.  Go pointer fields (`*int`, `*float64`)
become `Option`; `System` is a plain string whose zero value `""` plays
the role of absence; `Metadata` is an opaque JSON value. -/
structure ChatCompletionRequest where
  model : Bytes
  messages : List ChatMessage
  max_tokens : Option Int
  temperature : Option ℚ
  top_p : Option ℚ
  system : Bytes
  stop : Option (List Bytes)
  stream : Bool
  metadata : Option Json
  deriving Repr

/-- The distinct `InvalidRequest` failures of
`AnthropicProvider.ValidateRequest`. -/
inductive ValidationError where
  | modelRequired
  | messagesRequired
  | badRole (i : Nat)
  | emptyContent (i : Nat)
  | firstNotUser
  deriving Repr, DecidableEq

/-- The indexed message loop of `ValidateRequest`: role checked before
content, first offending message reported. -/
def validateMessages : Nat → List ChatMessage → Option ValidationError
  | _, [] => none
  | i, m :: rest =>
    if ¬(m.role = "user".toList ∨ m.role = "assistant".toList) then some (.badRole i)
    else if m.content = [] then some (.emptyContent i)
    else validateMessages (i + 1) rest

/-- `AnthropicProvider.ValidateRequest`. -/
def ValidateRequest (req : ChatCompletionRequest) : Option ValidationError :=
  if req.model = [] then some .modelRequired
  else
    match req.messages with
    | [] => some .messagesRequired
    | first :: _ =>
      match validateMessages 0 req.messages with
      | some e => some e
      | none => if first.role ≠ "user".toList then some .firstNotUser else none

/-- The Anthropic wire payload built by `TransformRequest`.  The Go code
builds a `map[string]interface...` and inserts optional keys only when
present; an `Option` field value of `none` models the key being entirely
absent from the marshalled payload (never a JSON `null`). -/
structure AnthropicRequest where
  model : Bytes
  messages : List ChatMessage
  max_tokens : Int
  temperature : Option ℚ
  top_p : Option ℚ
  system : Option Bytes
  stop_sequences : Option (List Bytes)
  stream : Option Bool
  metadata : Option Json
  deriving Repr

/-- `AnthropicProvider.TransformRequest`. -/
def TransformRequest (req : ChatCompletionRequest) : AnthropicRequest :=
  { model := req.model
    messages := req.messages
    max_tokens := req.max_tokens.getD 4096
    temperature := req.temperature
    top_p := req.top_p
    system := if req.system ≠ [] then some req.system else none
    stop_sequences := req.stop
    stream := if req.stream then some true else none
    metadata := req.metadata }

/-- One content block of an Anthropic response. -/
structure AnthropicContent where
  type : Bytes
  text : Bytes
  deriving Repr, DecidableEq

/-- The usage block of an Anthropic synchronous response. -/
structure AnthropicUsage where
  input_tokens : Int
  output_tokens : Int
  deriving Repr, DecidableEq

/-- `models.AnthropicResponse`: the vendor's synchronous response shape. -/
structure AnthropicResponse where
  id : Bytes
  type : Bytes
  role : Bytes
  model : Bytes
  content : List AnthropicContent
  stop_reason : Bytes
  usage : AnthropicUsage
  deriving Repr, DecidableEq

/-- The OpenAI-compatibility choice entry of the neutral response. -/
structure ChatCompletionChoice where
  index : Int
  message : ChatMessage
  finish_reason : Bytes
  deriving Repr, DecidableEq

/-- `models.ChatCompletionResponse`: the neutral response shape. -/
structure ChatCompletionResponse where
  id : Bytes
  type : Bytes
  role : Bytes
  model : Bytes
  usage : ChatCompletionUsage
  content : List AnthropicContent
  choices : List ChatCompletionChoice
  object : Bytes
  created : Int
  deriving Repr, DecidableEq

/-- `AnthropicProvider.TransformResponse` (the type-assertion failure
branch cannot arise in the typed embedding; `now` stands for
`time.Now().Unix()` used for the compatibility `created` stamp). -/
def TransformResponse (resp : AnthropicResponse) (now : Int) : ChatCompletionResponse :=
  let base : ChatCompletionResponse :=
    { id := resp.id
      type := resp.type
      role := resp.role
      model := resp.model
      usage := ⟨resp.usage.input_tokens, resp.usage.output_tokens,
                resp.usage.input_tokens + resp.usage.output_tokens,
                resp.usage.input_tokens, resp.usage.output_tokens⟩
      content := resp.content
      choices := []
      object := []
      created := 0 }
  match resp.content with
  | [] => base
  | first :: _ =>
    { base with
      choices := [⟨0, ⟨resp.role, first.text⟩, resp.stop_reason⟩]
      object := "chat.completion".toList
      created := now }

/-- Daily/monthly request counts (`services.UsageCounts`). -/
structure UsageCounts where
  daily_count : Int
  monthly_count : Int
  deriving Repr, DecidableEq

/-- Outcome of the usage-limit gate in
`LLMService.validateUsageLimitsOptimized`. -/
inductive ValidateKeyResult where
  | ok
  | dailyLimitExceeded
  | monthlyLimitExceeded
  deriving Repr, DecidableEq

/-- The limit checks of `LLMService.validateUsageLimitsOptimized`, given
the usage counts that the cache or batch query returned (the claim's
"usage read consistently").  Limits are checked only when at least one
ceiling is positive; the daily check runs before the monthly one. -/
def validateUsageLimitsOptimized (dailyLimit monthlyLimit : Int)
    (usage : UsageCounts) : ValidateKeyResult :=
  if dailyLimit > 0 ∨ monthlyLimit > 0 then
    if dailyLimit > 0 ∧ usage.daily_count ≥ dailyLimit then .dailyLimitExceeded
    else if monthlyLimit > 0 ∧ usage.monthly_count ≥ monthlyLimit then .monthlyLimitExceeded
    else .ok
  else .ok

/-- The authorization-record fields of `models.APIKey` that the
authentication and quota gate reads. -/
structure APIKey where
  id : Nat
  key_value : Bytes
  status : Bytes
  expires_at : Option Int
  daily_request_limit : Int
  monthly_request_limit : Int
  deriving Repr, DecidableEq

/-- `services.APIKeyCacheEntry`: the cached copy of an authorization
record, carrying its own copy of the expiry timestamp. -/
structure APIKeyCacheEntry where
  api_key : APIKey
  cached_at : Int
  expires_at : Option Int
  deriving Repr, DecidableEq

/-- `CacheService.GetAPIKey`: a cache entry (paired with the absolute
deadline at which the backend's TTL evicts it) is a hit when the TTL has
not elapsed and the record's own expiry timestamp has not passed the
current wall clock.  No other field is consulted. -/
def cacheGetAPIKey (entry : Option (APIKeyCacheEntry × Int)) (now : Int) : Option APIKey :=
  match entry with
  | none => none
  | some (e, ttlDeadline) =>
    if now < ttlDeadline then
      match e.expires_at with
      | some t => if t < now then none else some e.api_key
      | none => some e.api_key
    else none

/-- The durable-store lookup of `ValidateAPIKeyOptimized` on a cache
miss: `key_value = ? AND status = 'active'`. -/
def dbLookupActive (store : List APIKey) (keyValue : Bytes) : Option APIKey :=
  store.find? (fun k => k.key_value == keyValue && k.status == "active".toList)

/-- Outcome of `LLMService.ValidateAPIKeyOptimized`. -/
inductive AuthResult where
  | ok (key : APIKey)
  | invalidKey
  | keyExpired
  | quotaDaily
  | quotaMonthly
  deriving Repr, DecidableEq

/-- The tail of both authentication paths: the usage-limit gate applied
to the authorization record that was resolved. -/
def authFinish (k : APIKey) (usage : UsageCounts) : AuthResult :=
  match validateUsageLimitsOptimized k.daily_request_limit k.monthly_request_limit usage with
  | .ok => .ok k
  | .dailyLimitExceeded => .quotaDaily
  | .monthlyLimitExceeded => .quotaMonthly

/-- `LLMService.ValidateAPIKeyOptimized`: on a cache hit the cached
record goes straight to the usage-limit gate; only on a miss is the
durable store consulted (active status filter and expiry check), after
which the record would be repopulated into the cache.  `usage` stands for
the limit counts resolved by the usage cache or batch query. -/
def ValidateAPIKeyOptimized (cacheEntry : Option (APIKeyCacheEntry × Int))
    (store : List APIKey) (apiKey : Bytes) (usage : UsageCounts) (now : Int) : AuthResult :=
  match cacheGetAPIKey cacheEntry now with
  | some k => authFinish k usage
  | none =>
    match dbLookupActive store apiKey with
    | none => .invalidKey
    | some k =>
      match k.expires_at with
      | some t => if t < now then .keyExpired else authFinish k usage
      | none => authFinish k usage

/-- Go `time.Time.Truncate(24 * time.Hour)` on an instant expressed in
Unix seconds: rounding down to a multiple of 24h since the zero time,
whose day boundaries are UTC midnights (the zero time is an integral
number of days before the Unix epoch). -/
def truncDay (t : Int) : Int := 86400 * Int.fdiv t 86400

/-- Days since the Unix epoch of a proleptic-Gregorian civil date
(Howard Hinnant's `days_from_civil`, the algorithm underlying Go's
`time.Date` arithmetic). -/
def daysFromCivil (y m d : Int) : Int :=
  let y1 := y - (if m ≤ 2 then 1 else 0)
  let era := Int.fdiv y1 400
  let yoe := y1 - era * 400
  let doy := Int.fdiv (153 * (m + (if m > 2 then -3 else 9)) + 2) 5 + d - 1
  let doe := yoe * 365 + Int.fdiv yoe 4 - Int.fdiv yoe 100 + doy
  era * 146097 + doe - 719468

/-- Civil year and month containing a day count since the Unix epoch
(Hinnant's `civil_from_days`). -/
def civilYearMonth (z0 : Int) : Int × Int :=
  let z := z0 + 719468
  let era := Int.fdiv z 146097
  let doe := z - era * 146097
  let yoe := Int.fdiv (doe - Int.fdiv doe 1460 + Int.fdiv doe 36524 - Int.fdiv doe 146096) 365
  let y := yoe + era * 400
  let doy := doe - (365 * yoe + Int.fdiv yoe 4 - Int.fdiv yoe 100)
  let mp := Int.fdiv (5 * doy + 2) 153
  let m := mp + (if mp < 10 then 3 else -9)
  (y + (if m ≤ 2 then 1 else 0), m)

/-- Local civil year and month of a Unix instant in a fixed-offset
location (`now.Year()`, `now.Month()`). -/
def localYearMonth (t offset : Int) : Int × Int :=
  civilYearMonth (Int.fdiv (t + offset) 86400)

/-- Unix second at which local month (y, m) starts:
`time.Date(y, m, 1, 0, 0, 0, 0, loc)`. -/
def monthStartUnix (y m offset : Int) : Int :=
  daysFromCivil y m 1 * 86400 - offset

/-- `monthStart.AddDate(0, 1, 0)`: first day of the following month. -/
def nextMonth (y m : Int) : Int × Int :=
  if m = 12 then (y + 1, 1) else (y, m + 1)

/-- An accounting record (`models.LLMRequestLog`) as the count query sees
it: owner key, creation instant, lifecycle status. -/
structure LLMRequestLog where
  api_key_id : Nat
  created_at : Int
  status : Bytes
  deriving Repr, DecidableEq

/-- Count of a key's records created inside a half-open window, as the
SQL `COUNT(*) ... WHERE api_key_id = ? AND created_at >= ? AND
created_at < ?` computes it (note: no status filter). -/
def countLogsInWindow (logs : List LLMRequestLog) (apiKeyID : Nat) (lo hi : Int) : Int :=
  ((logs.filter (fun r =>
    r.api_key_id == apiKeyID && decide (lo ≤ r.created_at) && decide (r.created_at < hi))).length : Int)

/-- `LLMService.getBatchUsageFromDB`: both windows derive from the single
instant `now` (in a location with fixed UTC offset `offset` seconds); the
day window comes from `now.Truncate(24h)`, the month window from the
local calendar month. -/
def getBatchUsageFromDB (logs : List LLMRequestLog) (apiKeyID : Nat)
    (now offset : Int) : UsageCounts :=
  let today := truncDay now
  let tomorrow := today + 86400
  let ym := localYearMonth now offset
  let monthStart := monthStartUnix ym.1 ym.2 offset
  let ym2 := nextMonth ym.1 ym.2
  let monthEnd := monthStartUnix ym2.1 ym2.2 offset
  ⟨countLogsInWindow logs apiKeyID today tomorrow,
   countLogsInWindow logs apiKeyID monthStart monthEnd⟩

/-- Modelled from the spec (for comparison with `getBatchUsageFromDB`):
"the number of completed-or-pending accounting records attributed to the
key" for "the current calendar day (midnight-to-midnight local
boundary)" and "current calendar month", "as of a single consistent
now". -/
def specUsageCounts (logs : List LLMRequestLog) (apiKeyID : Nat)
    (now offset : Int) : UsageCounts :=
  let dayStart := Int.fdiv (now + offset) 86400 * 86400 - offset
  let dayEnd := dayStart + 86400
  let ym := localYearMonth now offset
  let monthStart := monthStartUnix ym.1 ym.2 offset
  let ym2 := nextMonth ym.1 ym.2
  let monthEnd := monthStartUnix ym2.1 ym2.2 offset
  let keep := fun (r : LLMRequestLog) =>
    r.api_key_id == apiKeyID &&
      (r.status == "completed".toList || r.status == "pending".toList)
  ⟨((logs.filter (fun r =>
      keep r && decide (dayStart ≤ r.created_at) && decide (r.created_at < dayEnd))).length : Int),
   ((logs.filter (fun r =>
      keep r && decide (monthStart ≤ r.created_at) && decide (r.created_at < monthEnd))).length : Int)⟩

/-- Lifecycle states of a request accounting record. -/
inductive LogStatus where
  | pending
  | completed
  | failed
  deriving Repr, DecidableEq

/-- The accounting fields that the streaming finalize step writes.  A
record is created with status `pending` and zero token/cost fields. -/
structure StreamFinalLog where
  status : LogStatus
  input_tokens : Int
  output_tokens : Int
  total_tokens : Int
  total_cost : ℚ
  deriving Repr, DecidableEq

/-- The record as `createRequestLog` leaves it. -/
def initialStreamLog : StreamFinalLog := ⟨.pending, 0, 0, 0, 0⟩

/-- The post-loop finalize step of the streaming wrapper goroutine:
`updateRequestLogStreamSuccess` when a usage summary was captured
(cost via `CalculateCost`), else `updateRequestLogStreamComplete`
(status only; token/cost fields keep their zero defaults). -/
def finalizeStreamLog (model : LLMModel) (usage : Option ChatCompletionUsage) : StreamFinalLog :=
  match usage with
  | some u =>
    ⟨.completed, u.input_tokens, u.output_tokens, u.total_tokens, (CalculateCost u model).2.2⟩
  | none => ⟨.completed, 0, 0, 0, 0⟩

/-- The wrapper goroutine of `LLMService.StreamChatCompletion` over the
(finite) sequence of items the provider goroutine put on the stream
channel: usage items are captured and withheld; other items are
forwarded with a non-blocking send — `slots` counts how many sends the
client-facing channel can still absorb (its buffer holds 100, plus
whatever the consumer drains).  When a send finds no free slot the
goroutine returns at once, skipping the finalize step, so the record
keeps its initial `pending` state.  Returns the forwarded items and the
final accounting record. -/
def runStreamWrapper (model : LLMModel) :
    List Bytes → Nat → Option ChatCompletionUsage → List Bytes × StreamFinalLog
  | [], _, u => ([], finalizeStreamLog model u)
  | d :: ds, slots, u =>
    match extractUsageFromSSE d with
    | some u2 => runStreamWrapper model ds slots (some u2)
    | none =>
      match slots with
      | 0 => ([], initialStreamLog)
      | slots2 + 1 =>
        let rec2 := runStreamWrapper model ds slots2 u
        (d :: rec2.1, rec2.2)

/-- The capacity of the client-facing channel created by the wrapper:
`make(chan []byte, 100)`. -/
def wrappedChanCap : Nat := 100

/-- The body of the read loop of `AnthropicProvider.StreamChatCompletion`
applied to one list of buffered events: every event is processed and its
output (if any) emitted, except that an incomplete trailing event (text
not ending in a blank line) is withheld as the new remainder. -/
def relayEventsLoop : List Bytes → Bool → List Bytes × Bytes
  | [], _ => ([], [])
  | [e], complete => if complete then ((processSSEEvent e).toList, []) else ([], e)
  | e :: e2 :: es, complete =>
    let rest := relayEventsLoop (e2 :: es) complete
    ((processSSEEvent e).toList ++ rest.1, rest.2)

/-- One iteration of the read loop for a chunk returned by
`httpResp.Body.Read`: prepend the held remainder, split into events, emit
the complete ones, hold back the incomplete tail. -/
def relayReadChunk (remainder chunk : Bytes) : List Bytes × Bytes :=
  let text := remainder ++ chunk
  relayEventsLoop (parseSSEEvents text) (hasSuffixNN text)

/-- The whole read loop over a sequence of read chunks (clean end of
stream afterwards; the final remainder is discarded, as in the source).
Returns the events emitted on the stream channel, in order. -/
def relayStream (chunks : List Bytes) : List Bytes :=
  (chunks.foldl
    (fun acc c =>
      let step := relayReadChunk acc.2 c
      (acc.1 ++ step.1, step.2))
    (([] : List Bytes), ([] : Bytes))).1

/-- Usage value with the normalization invariant the gateway maintains
(total and the compatibility fields derived from input/output). -/
def mkUsage (i o : Int) : ChatCompletionUsage := ⟨i, o, i + o, i, o⟩

/-- Number of stream-channel items the wrapper goroutine attempts to
forward (the non-usage items). -/
def countForwardable (events : List Bytes) : Nat :=
  (events.filter (fun d => (extractUsageFromSSE d).isNone)).length

/-- The usage value held by the wrapper's `finalUsage` variable after
scanning `events`, starting from `u0`. -/
def lastUsageFrom (u0 : Option ChatCompletionUsage) (events : List Bytes) :
    Option ChatCompletionUsage :=
  events.foldl
    (fun acc d =>
      match extractUsageFromSSE d with
      | some u => some u
      | none => acc) u0

/-- The JSON value of the synthetic usage event. -/
def usageJsonVal (i o : Int) : Json :=
  .obj [("type".toList, .str usageUpdateType),
        ("usage".toList,
          .obj [("input_tokens".toList, .num i),
                ("output_tokens".toList, .num o),
                ("total_tokens".toList, .num (i + o))])]

mutual

/-- All string leaves of a JSON value (used to show that `encoding/json`
string values are substrings of the unmarshalled input). -/
def jsonStrs : Json → List Bytes
  | .str s => [s]
  | .arr es => jsonStrsList es
  | .obj fs => jsonStrsFields fs
  | _ => []

/-- String leaves of a list of JSON values. -/
def jsonStrsList : List Json → List Bytes
  | [] => []
  | e :: t => jsonStrs e ++ jsonStrsList t

/-- String leaves of the values of an object field list. -/
def jsonStrsFields : List (Bytes × Json) → List Bytes
  | [] => []
  | (_, v) :: t => jsonStrs v ++ jsonStrsFields t

end

/-- A concrete vendor terminal event payload (`message_stop` carrying
usage input 12 / output 34), for concrete evaluations. -/
def msgStopJson : Bytes :=
  ("\x7b\"type\":\"message_stop\",\"message\":" ++
   "\x7b\"usage\":\x7b\"input_tokens\":12,\"output_tokens\":34\x7d\x7d\x7d").toList

/-- A concrete non-terminal content event payload. -/
def contentJson : Bytes := "\x7b\"type\":\"content_block_delta\"\x7d".toList

/-- A complete vendor event as Anthropic actually frames it: an `event:`
header line followed by the `data:` line. -/
def headeredEvent : Bytes :=
  ("event: content_block_delta\ndata: " ++
   "\x7b\"type\":\"content_block_delta\"\x7d").toList

/-- The complete segments of a buffered text: all of them when the text
ends in a blank line, all but the held-back last one otherwise. -/
def completedSegs (T : Bytes) : List Bytes :=
  if hasSuffixNN T then splitNN T else (splitNN T).dropLast

/-- The events the read loop emits while holding the buffered text `T`. -/
def emitOf (T : Bytes) : List Bytes := (completedSegs T).filterMap processSSEEvent

/-- The remainder the read loop holds back for a buffered text. -/
def remOf (T : Bytes) : Bytes :=
  if hasSuffixNN T then [] else (splitNN T).getLastD []

/-- Relation between held remainders of the incremental and contiguous
runs: equal up to one leading newline already consumed as a separator on
one side. -/
def nlRel (a b : Bytes) : Prop := a = b ∨ a = '\n' :: b ∨ b = '\n' :: a

/-- The relation between the one-shot buffered text and the incremental
remainder maintained by the read loop. -/
def StateRel (T r : Bytes) : Prop :=
  (hasSuffixNN T = true ∧ (r = [] ∨ r = ['\n'])) ∨
  (hasSuffixNN T = false ∧ nlRel r (remOf T))

/-- The fold step of `relayStream`, named for the invariant proofs. -/
def relayFoldStep (a : List Bytes × Bytes) (c : Bytes) : List Bytes × Bytes :=
  (a.1 ++ (relayReadChunk a.2 c).1, (relayReadChunk a.2 c).2)

/-- C6: for every usage and model, `CalculateCost` returns input cost
`inputTokens × inputPricePer1K ÷ 1000`, output cost
`outputTokens × outputPricePer1K ÷ 1000` and their sum as total; it is
additive componentwise in token counts for fixed rates, and zero tokens
yield zero cost. -/
theorem c6_calculate_cost (m : LLMModel) (u : ChatCompletionUsage) (i1 o1 i2 o2 : Int) :
    CalculateCost u m =
      ((u.input_tokens : ℚ) * m.input_cost_per_1k / 1000,
       (u.output_tokens : ℚ) * m.output_cost_per_1k / 1000,
       (u.input_tokens : ℚ) * m.input_cost_per_1k / 1000
         + (u.output_tokens : ℚ) * m.output_cost_per_1k / 1000) ∧
    (CalculateCost (mkUsage (i1 + i2) (o1 + o2)) m).1
      = (CalculateCost (mkUsage i1 o1) m).1 + (CalculateCost (mkUsage i2 o2) m).1 ∧
    (CalculateCost (mkUsage (i1 + i2) (o1 + o2)) m).2.1
      = (CalculateCost (mkUsage i1 o1) m).2.1 + (CalculateCost (mkUsage i2 o2) m).2.1 ∧
    (CalculateCost (mkUsage (i1 + i2) (o1 + o2)) m).2.2
      = (CalculateCost (mkUsage i1 o1) m).2.2 + (CalculateCost (mkUsage i2 o2) m).2.2 ∧
    CalculateCost (mkUsage 0 0) m = (0, 0, 0) := by
  refine ⟨rfl, ?_, ?_, ?_, ?_⟩ <;> simp [CalculateCost, mkUsage] <;> ring

/-- C4: the quota gate rejects iff a positive daily ceiling is met by the
daily count or a positive monthly ceiling is met by the monthly count;
keys with both ceilings zero/unset are never rejected; with a daily
ceiling `d` a call whose consistently-read daily count has reached `d`
is rejected. -/
theorem c4_quota_gate (d m : Int) (u : UsageCounts) :
    (validateUsageLimitsOptimized d m u ≠ .ok ↔
      (0 < d ∧ d ≤ u.daily_count) ∨ (0 < m ∧ m ≤ u.monthly_count)) ∧
    (d = 0 ∧ m = 0 → validateUsageLimitsOptimized d m u = .ok) ∧
    (0 < d ∧ u.daily_count = d → validateUsageLimitsOptimized d m u ≠ .ok) := by
  unfold validateUsageLimitsOptimized
  split_ifs with h1 h2 h3 <;> simp_all <;> omega

/-- Witness for C4 at concrete inputs: the 6th call under a daily ceiling
of 5 is rejected, and a key with no ceilings passes at any usage. -/
theorem c4_quota_gate_witness :
    validateUsageLimitsOptimized 5 0 ⟨5, 0⟩ ≠ .ok ∧
    validateUsageLimitsOptimized 0 0 ⟨1000000, 1000000⟩ = .ok :=
  ⟨(c4_quota_gate 5 0 ⟨5, 0⟩).2.2 (by norm_num),
   (c4_quota_gate 0 0 ⟨1000000, 1000000⟩).2.1 ⟨rfl, rfl⟩⟩

/-- C9: `TransformRequest` carries each optional neutral field into the
vendor payload exactly when present (`none` = key omitted), includes the
system prompt exactly when non-empty and the stream flag exactly when
set, and defaults the required `max_tokens` to 4096 when the neutral
request does not supply it. -/
theorem c9_transform_request (req : ChatCompletionRequest) :
    (TransformRequest req).temperature = req.temperature ∧
    (TransformRequest req).top_p = req.top_p ∧
    (TransformRequest req).stop_sequences = req.stop ∧
    (TransformRequest req).metadata = req.metadata ∧
    ((TransformRequest req).system = if req.system ≠ [] then some req.system else none) ∧
    ((TransformRequest req).stream = if req.stream then some true else none) ∧
    (req.max_tokens = none → (TransformRequest req).max_tokens = 4096) ∧
    (∀ v, req.max_tokens = some v → (TransformRequest req).max_tokens = v) := by
  refine ⟨rfl, rfl, rfl, rfl, rfl, rfl, ?_, ?_⟩
  · intro h; simp [TransformRequest, h]
  · intro v h; simp [TransformRequest, h]

/-- Witness for C9 at a concrete request: absent optional fields are
omitted and `max_tokens` defaults. -/
theorem c9_transform_request_witness :
    (TransformRequest ⟨"claude".toList, [⟨"user".toList, "hi".toList⟩],
        none, none, none, [], none, false, none⟩).max_tokens = 4096 ∧
    (TransformRequest ⟨"claude".toList, [⟨"user".toList, "hi".toList⟩],
        none, none, none, [], none, false, none⟩).temperature = none :=
  ⟨(c9_transform_request _).2.2.2.2.2.2.1 rfl, (c9_transform_request _).1⟩

/-- The message loop accepts exactly when every message has an accepted
role and non-empty content (at any starting index). -/
theorem validateMessages_eq_none (msgs : List ChatMessage) : ∀ i,
    validateMessages i msgs = none ↔
      ∀ m ∈ msgs, (m.role = "user".toList ∨ m.role = "assistant".toList) ∧ m.content ≠ [] := by
  induction msgs with
  | nil => intro i; simp [validateMessages]
  | cons m rest ih =>
    intro i
    simp only [validateMessages]
    by_cases hrole : m.role = "user".toList ∨ m.role = "assistant".toList
    · rw [if_neg (not_not_intro hrole)]
      by_cases hc : m.content = []
      · rw [if_pos hc]
        constructor
        · intro h; exact absurd h (by simp)
        · intro h; exact absurd hc (h m (List.mem_cons_self m rest)).2
      · rw [if_neg hc]
        rw [ih (i + 1)]
        simp only [List.mem_cons, forall_eq_or_imp]
        constructor
        · intro hrest; exact ⟨⟨hrole, hc⟩, hrest⟩
        · intro h; exact h.2
    · rw [if_pos hrole]
      constructor
      · intro h; exact absurd h (by simp)
      · intro h; exact absurd (h m (List.mem_cons_self m rest)).1 hrole

/-- C8: `ValidateRequest` fails iff the model is absent, the message list
is empty, some message has a role outside user/assistant, some message
has empty content, or the first message's role is not `user`; otherwise
it succeeds. -/
theorem c8_validate_request (req : ChatCompletionRequest) :
    ValidateRequest req ≠ none ↔
      (req.model = [] ∨ req.messages = [] ∨
       (∃ msg ∈ req.messages, ¬(msg.role = "user".toList ∨ msg.role = "assistant".toList)) ∨
       (∃ msg ∈ req.messages, msg.content = []) ∨
       (∃ first, req.messages.head? = some first ∧ first.role ≠ "user".toList)) := by
  by_cases hm : req.model = []
  · constructor
    · intro _; exact Or.inl hm
    · intro _; simp [ValidateRequest, hm]
  · cases hmsg : req.messages with
    | nil =>
      constructor
      · intro _; exact Or.inr (Or.inl rfl)
      · intro _; simp [ValidateRequest, hm, hmsg]
    | cons first rest =>
      have hv := validateMessages_eq_none (first :: rest) 0
      have hres : ValidateRequest req =
          (match validateMessages 0 (first :: rest) with
           | some e => some e
           | none => if first.role ≠ "user".toList then some .firstNotUser else none) := by
        simp [ValidateRequest, hm, hmsg]
      cases hval : validateMessages 0 (first :: rest) with
      | some e =>
        rw [hval] at hres hv
        constructor
        · intro _
          have hbad : ¬ ∀ m ∈ first :: rest,
              (m.role = "user".toList ∨ m.role = "assistant".toList) ∧ m.content ≠ [] := by
            intro hall
            exact absurd (hv.mpr hall) (by simp)
          push_neg at hbad
          obtain ⟨msg, hmem, hbad2⟩ := hbad
          rcases Classical.em (msg.role = "user".toList ∨ msg.role = "assistant".toList) with hrole | hrole
          · exact Or.inr (Or.inr (Or.inr (Or.inl ⟨msg, hmem, hbad2 hrole⟩)))
          · exact Or.inr (Or.inr (Or.inl ⟨msg, hmem, hrole⟩))
        · intro _
          rw [hres]; simp
      | none =>
        rw [hval] at hres hv
        have hall := hv.mp rfl
        by_cases hf : first.role = "user".toList
        · have hok : ValidateRequest req = none := by
            rw [hres]; simp only [ne_eq]; rw [if_neg (not_not_intro hf)]
          constructor
          · intro h; exact absurd hok h
          · rintro (h | h | ⟨msg, hmem, hrole⟩ | ⟨msg, hmem, hcont⟩ | ⟨f, hf2, hne⟩)
            · exact absurd h hm
            · exact absurd h (by simp)
            · exact absurd (hall msg hmem).1 hrole
            · exact absurd hcont (hall msg hmem).2
            · simp only [List.head?_cons, Option.some.injEq] at hf2
              exact absurd (hf2 ▸ hf) hne
        · constructor
          · intro _
            exact Or.inr (Or.inr (Or.inr (Or.inr ⟨first, rfl, hf⟩)))
          · intro _
            rw [hres]; simp only [ne_eq]; rw [if_pos hf]; simp

/-- Witness for C8 at a concrete request: a request opening with an
assistant turn fails validation. -/
theorem c8_validate_request_witness :
    ValidateRequest ⟨"claude".toList, [⟨"assistant".toList, "hi".toList⟩],
        none, none, none, [], none, false, none⟩ ≠ none :=
  (c8_validate_request _).mpr
    (Or.inr (Or.inr (Or.inr (Or.inr ⟨⟨"assistant".toList, "hi".toList⟩, by decide⟩))))

/-- C10: on a credential cache hit only the cached record's expiry
timestamp is re-checked against the wall clock (hit iff the backend TTL
has not elapsed and the expiry has not passed); the hit-path outcome does
not depend on the durable store at all, so a status flipped to
inactive/revoked there is not seen; once the TTL elapses (or with no
cache entry) the store's active-status filter decides. -/
theorem c10_cache_hit_skips_status (e : APIKeyCacheEntry) (dl : Int)
    (store store2 : List APIKey) (key : Bytes) (u : UsageCounts) (now : Int) :
    (cacheGetAPIKey (some (e, dl)) now = some e.api_key ↔
       now < dl ∧ ∀ t, e.expires_at = some t → ¬ t < now) ∧
    ((cacheGetAPIKey (some (e, dl)) now).isSome →
       ValidateAPIKeyOptimized (some (e, dl)) store key u now =
         ValidateAPIKeyOptimized (some (e, dl)) store2 key u now) ∧
    (dl ≤ now → dbLookupActive store key = none →
       ValidateAPIKeyOptimized (some (e, dl)) store key u now = .invalidKey) ∧
    (dbLookupActive store key = none →
       ValidateAPIKeyOptimized none store key u now = .invalidKey) := by
  refine ⟨?_, ?_, ?_, ?_⟩
  · simp only [cacheGetAPIKey]
    by_cases hdl : now < dl
    · cases hexp : e.expires_at with
      | none => simp [hdl, hexp]
      | some t =>
        by_cases ht : t < now
        · simp only [hdl, if_true, hexp, ht]
          constructor
          · intro h; exact absurd h (by simp)
          · intro h; exact absurd (h.2 t rfl) (by simpa using ht)
        · simp [hdl, hexp, ht]; omega
    · rw [if_neg hdl]
      constructor
      · intro h; exact absurd h (by simp)
      · intro h; exact absurd h.1 hdl
  · intro hsome
    cases h : cacheGetAPIKey (some (e, dl)) now with
    | none => rw [h] at hsome; exact absurd hsome (by simp)
    | some k => unfold ValidateAPIKeyOptimized; rw [h]
  · intro hdl hdb
    have hmiss : cacheGetAPIKey (some (e, dl)) now = none := by
      have hnlt : ¬ now < dl := by omega
      simp only [cacheGetAPIKey]
      rw [if_neg hnlt]
    unfold ValidateAPIKeyOptimized
    rw [hmiss, hdb]
  · intro hdb
    have hmiss : cacheGetAPIKey none now = none := rfl
    unfold ValidateAPIKeyOptimized
    rw [hmiss, hdb]

/-- Witness for C10: a key cached as active (entry TTL deadline 100, no
expiry) is accepted at time 50 although the durable store now holds it
revoked; at time 200, past the TTL, the store's active filter rejects
it. -/
theorem c10_cache_hit_skips_status_witness :
    ValidateAPIKeyOptimized
        (some (⟨⟨1, "k".toList, "active".toList, none, 0, 0⟩, 0, none⟩, 100))
        [⟨1, "k".toList, "revoked".toList, none, 0, 0⟩] "k".toList ⟨0, 0⟩ 50 =
      .ok ⟨1, "k".toList, "active".toList, none, 0, 0⟩ ∧
    ValidateAPIKeyOptimized
        (some (⟨⟨1, "k".toList, "active".toList, none, 0, 0⟩, 0, none⟩, 100))
        [⟨1, "k".toList, "revoked".toList, none, 0, 0⟩] "k".toList ⟨0, 0⟩ 200 =
      .invalidKey :=
  ⟨by decide,
   (c10_cache_hit_skips_status ⟨⟨1, "k".toList, "active".toList, none, 0, 0⟩, 0, none⟩ 100
      [⟨1, "k".toList, "revoked".toList, none, 0, 0⟩]
      [⟨1, "k".toList, "revoked".toList, none, 0, 0⟩]
      "k".toList ⟨0, 0⟩ 200).2.2.1 (by norm_num) (by decide)⟩

/-- The finalize step always writes status `completed`. -/
theorem finalizeStreamLog_status (m : LLMModel) (u : Option ChatCompletionUsage) :
    (finalizeStreamLog m u).status = .completed := by
  cases u <;> rfl

/-- Full description of one wrapper-goroutine run: with enough channel
capacity it forwards exactly the non-usage items and finalizes from the
last captured usage; once capacity runs out on a forward it abandons the
run with the record untouched. -/
theorem runStreamWrapper_run (model : LLMModel) : ∀ (events : List Bytes) (slots : Nat)
    (u0 : Option ChatCompletionUsage),
    (countForwardable events ≤ slots →
      runStreamWrapper model events slots u0 =
        (events.filter (fun d => (extractUsageFromSSE d).isNone),
         finalizeStreamLog model (lastUsageFrom u0 events))) ∧
    (slots < countForwardable events →
      (runStreamWrapper model events slots u0).2 = initialStreamLog) := by
  intro events
  induction events with
  | nil =>
    intro slots u0
    constructor
    · intro _; simp [runStreamWrapper, countForwardable, lastUsageFrom]
    · intro h; simp [countForwardable] at h
  | cons d ds ih =>
    intro slots u0
    cases h : extractUsageFromSSE d with
    | some u2 =>
      have hcf : countForwardable (d :: ds) = countForwardable ds := by
        simp [countForwardable, h]
      have hlu : lastUsageFrom u0 (d :: ds) = lastUsageFrom (some u2) ds := by
        simp [lastUsageFrom, h]
      constructor
      · intro hle
        rw [hcf] at hle
        simp only [runStreamWrapper, h]
        rw [(ih slots (some u2)).1 hle, hlu]
        simp [List.filter_cons, h]
      · intro hlt
        rw [hcf] at hlt
        simp only [runStreamWrapper, h]
        exact (ih slots (some u2)).2 hlt
    | none =>
      have hcf : countForwardable (d :: ds) = countForwardable ds + 1 := by
        simp [countForwardable, h]
      have hlu : lastUsageFrom u0 (d :: ds) = lastUsageFrom u0 ds := by
        simp [lastUsageFrom, h]
      cases slots with
      | zero =>
        constructor
        · intro hle; rw [hcf] at hle; omega
        · intro _; simp [runStreamWrapper, h]
      | succ s =>
        constructor
        · intro hle
          rw [hcf] at hle
          simp only [runStreamWrapper, h]
          rw [(ih s u0).1 (by omega), hlu]
          simp [List.filter_cons, h]
        · intro hlt
          rw [hcf] at hlt
          simp only [runStreamWrapper, h]
          exact (ih s u0).2 (by omega)

/-- C2 (amended): after the relayed source closes, the wrapper's record
is `pending` exactly when the consumer stopped accepting early enough
that a forward found no free channel slot; whenever the run is not
abandoned the finalize step runs — `completed` with the captured tokens
and cost when a usage summary was captured, `completed` with zero
usage/cost when none was.  (The unamended claim that the finalize step
still runs when the client stops accepting events is refuted by
`c2_stream_finalize_counterexample`.) -/
theorem c2_stream_finalize (model : LLMModel) (events : List Bytes) (slots : Nat) :
    ((runStreamWrapper model events slots none).2.status = .pending ↔
       slots < countForwardable events) ∧
    (countForwardable events ≤ slots →
       (runStreamWrapper model events slots none).2 =
         finalizeStreamLog model (lastUsageFrom none events)) ∧
    (∀ u, countForwardable events ≤ slots → lastUsageFrom none events = some u →
       (runStreamWrapper model events slots none).2 =
         ⟨.completed, u.input_tokens, u.output_tokens, u.total_tokens,
          (CalculateCost u model).2.2⟩) ∧
    (countForwardable events ≤ slots → lastUsageFrom none events = none →
       (runStreamWrapper model events slots none).2 = ⟨.completed, 0, 0, 0, 0⟩) := by
  have hrun := runStreamWrapper_run model events slots none
  refine ⟨?_, ?_, ?_, ?_⟩
  · constructor
    · intro hp
      by_contra hlt
      rw [hrun.1 (by omega)] at hp
      rw [finalizeStreamLog_status] at hp
      exact absurd hp (by simp)
    · intro hlt
      rw [hrun.2 hlt]
      rfl
  · intro hle; rw [hrun.1 hle]
  · intro u hle hu
    rw [hrun.1 hle, hu]
    rfl
  · intro hle hu
    rw [hrun.1 hle, hu]
    rfl

/-- Counterexample to C2 as stated: with the client gone (only the
100-slot channel buffer absorbing sends), an upstream run of 101 content
events makes the wrapper abandon the call, so the record stays `pending`
after the source closes and the finalize step never runs. -/
theorem c2_stream_finalize_counterexample :
    (runStreamWrapper ⟨1, 1⟩ (List.replicate (wrappedChanCap + 1) ("data: x").toList)
        wrappedChanCap none).2.status = .pending := by
  decide

/-- Witness for C2 at a concrete run: one captured usage event, capacity
not exhausted, record finalized as completed with tokens and cost. -/
theorem c2_stream_finalize_witness :
    (runStreamWrapper ⟨3, 15⟩ [usageUpdateFrame 12 34] 100 none).2 =
      ⟨.completed, 12, 34, 46, (CalculateCost ⟨12, 34, 46, 12, 34⟩ ⟨3, 15⟩).2.2⟩ :=
  (c2_stream_finalize ⟨3, 15⟩ [usageUpdateFrame 12 34] 100).2.2.1
    ⟨12, 34, 46, 12, 34⟩ (by decide) (by decide)

/-- Two instants truncate to the same 24h boundary exactly when one lies
in the other's UTC day window. -/
theorem truncDay_eq_iff (x t : Int) :
    truncDay x = truncDay t ↔ truncDay t ≤ x ∧ x < truncDay t + 86400 := by
  unfold truncDay
  rw [Int.fdiv_eq_ediv _ (by norm_num), Int.fdiv_eq_ediv _ (by norm_num)]
  omega

/-- C3 (amended): both usage windows derive from the single captured
`now`, but the daily window is the UTC day of `now` — the 24h-truncation
boundary, not local midnight — and the count has no status filter (every
record, `failed` included, is counted); the monthly window is the local
calendar month of `now`.  The unamended claim is refuted by
`c3_usage_windows_counterexample`. -/
theorem c3_usage_windows (logs : List LLMRequestLog) (key : Nat) (now offset : Int) :
    ((getBatchUsageFromDB logs key now offset).daily_count =
      ((logs.filter (fun r => r.api_key_id == key &&
          decide (truncDay r.created_at = truncDay now))).length : Int)) ∧
    (truncDay now % 86400 = 0 ∧ truncDay now ≤ now ∧ now < truncDay now + 86400) ∧
    ((getBatchUsageFromDB logs key now offset).monthly_count =
      countLogsInWindow logs key
        (monthStartUnix (localYearMonth now offset).1 (localYearMonth now offset).2 offset)
        (monthStartUnix (nextMonth (localYearMonth now offset).1 (localYearMonth now offset).2).1
          (nextMonth (localYearMonth now offset).1 (localYearMonth now offset).2).2 offset)) := by
  refine ⟨?_, ⟨?_, ?_, ?_⟩, rfl⟩
  · show countLogsInWindow logs key (truncDay now) (truncDay now + 86400) = _
    unfold countLogsInWindow
    congr 1
    apply congrArg
    apply List.filter_congr
    intro r _
    cases hk : (r.api_key_id == key)
    · simp
    · simp only [Bool.true_and]
      rw [← Bool.decide_and]
      exact decide_eq_decide.mpr (Iff.symm (truncDay_eq_iff r.created_at now))
  · unfold truncDay
    exact Int.mul_emod_right 86400 _
  · unfold truncDay
    rw [Int.fdiv_eq_ediv _ (by norm_num)]
    omega
  · unfold truncDay
    rw [Int.fdiv_eq_ediv _ (by norm_num)]
    omega

/-- Counterexample to C3 as stated: in a UTC+1 location at local time
01:30 of 1970-01-02 (`now = 88200`), a completed record from 00:16:40
local the same day (`created_at = 85000`) lies in the local calendar day
but before the 24h-truncation boundary, so the code counts 0 where the
claim demands 1; and a failed record at `created_at = 90000` is counted
by the code although the claim counts only completed-or-pending
records. -/
theorem c3_usage_windows_counterexample :
    (getBatchUsageFromDB [⟨1, 85000, "completed".toList⟩] 1 88200 3600).daily_count = 0 ∧
    (specUsageCounts [⟨1, 85000, "completed".toList⟩] 1 88200 3600).daily_count = 1 ∧
    (getBatchUsageFromDB [⟨1, 90000, "failed".toList⟩] 1 88200 3600).daily_count = 1 ∧
    (specUsageCounts [⟨1, 90000, "failed".toList⟩] 1 88200 3600).daily_count = 0 := by
  refine ⟨by decide, by decide, by decide, by decide⟩

/-- Digit rendering is fuel-irrelevant once the fuel covers the value. -/
theorem renderNatAux_congr (n : Nat) : ∀ f g, n < 10 ^ f → n < 10 ^ g → 0 < f → 0 < g →
    renderNatAux f n = renderNatAux g n := by
  induction n using Nat.strong_induction_on with
  | _ n ih =>
    intro f g hf hg hf0 hg0
    obtain ⟨f1, rfl⟩ : ∃ f1, f = f1 + 1 := ⟨f - 1, by omega⟩
    obtain ⟨g1, rfl⟩ : ∃ g1, g = g1 + 1 := ⟨g - 1, by omega⟩
    by_cases h10 : n < 10
    · simp [renderNatAux, h10]
    · simp only [renderNatAux, h10, if_false]
      congr 1
      have hf1 : n / 10 < 10 ^ f1 := by
        apply (Nat.div_lt_iff_lt_mul (by norm_num)).mpr
        rw [← pow_succ]
        exact hf
      have hg1 : n / 10 < 10 ^ g1 := by
        apply (Nat.div_lt_iff_lt_mul (by norm_num)).mpr
        rw [← pow_succ]
        exact hg
      have hf10 : 0 < f1 := by
        rcases Nat.eq_zero_or_pos f1 with h | h
        · subst h; simp at hf; omega
        · exact h
      have hg10 : 0 < g1 := by
        rcases Nat.eq_zero_or_pos g1 with h | h
        · subst h; simp at hg; omega
        · exact h
      exact ih (n / 10) (Nat.div_lt_self (by omega) (by norm_num)) f1 g1 hf1 hg1 hf10 hg10

/-- Every natural is below `10 ^ (n + 1)`. -/
theorem lt_ten_pow_succ (n : Nat) : n < 10 ^ (n + 1) := by
  calc n < 2 ^ n := Nat.lt_two_pow n
    _ ≤ 10 ^ n := Nat.pow_le_pow_left (by norm_num) n
    _ < 10 ^ (n + 1) := by
        apply Nat.pow_lt_pow_right (by norm_num) (by omega)

/-- `renderNat` agrees with any sufficiently fuelled `renderNatAux`. -/
theorem renderNat_eq_aux (n f : Nat) (hf : n < 10 ^ f) (hf0 : 0 < f) :
    renderNat n = renderNatAux f n :=
  renderNatAux_congr n (n + 1) f (lt_ten_pow_succ n) hf (by omega) hf0

/-- Single-digit rendering. -/
theorem renderNat_lt10 (n : Nat) (h : n < 10) : renderNat n = [Char.ofNat (48 + n)] := by
  unfold renderNat
  simp [renderNatAux, h]

/-- Multi-digit rendering peels the last digit. -/
theorem renderNat_ge10 (n : Nat) (h : 10 ≤ n) :
    renderNat n = renderNat (n / 10) ++ [Char.ofNat (48 + n % 10)] := by
  show renderNatAux (n + 1) n = _
  simp only [renderNatAux]
  rw [if_neg (by omega)]
  congr 1
  symm
  apply renderNat_eq_aux
  · calc n / 10 ≤ n := Nat.div_le_self n 10
      _ < 2 ^ n := Nat.lt_two_pow n
      _ ≤ 10 ^ n := Nat.pow_le_pow_left (by norm_num) n
  · omega

/-- The character facts needed about a decimal digit character. -/
theorem digitChar_facts (d : Nat) (h : d < 10) :
    (Char.ofNat (48 + d)).toNat = 48 + d ∧
    (Char.ofNat (48 + d)).isDigit = true ∧
    isWsChar (Char.ofNat (48 + d)) = false ∧
    isStrChar (Char.ofNat (48 + d)) = true ∧
    Char.ofNat (48 + d) ≠ '\n' ∧
    Char.ofNat (48 + d) ≠ '-' ∧
    Char.ofNat (48 + d) ≠ '"' ∧
    ¬(Char.ofNat (48 + d) = '{' ∨ Char.ofNat (48 + d) = '[' ∨ Char.ofNat (48 + d) = 't' ∨
      Char.ofNat (48 + d) = 'f' ∨ Char.ofNat (48 + d) = 'n') := by
  interval_cases d <;> exact ⟨rfl, rfl, rfl, rfl, by decide, by decide, by decide, by decide⟩

/-- Every character of `renderNat` is a decimal digit character. -/
theorem renderNat_mem (n : Nat) : ∀ c ∈ renderNat n, ∃ d, d < 10 ∧ c = Char.ofNat (48 + d) := by
  induction n using Nat.strong_induction_on with
  | _ n ih =>
    by_cases h10 : n < 10
    · rw [renderNat_lt10 n h10]
      intro c hc
      simp only [List.mem_singleton] at hc
      exact ⟨n, h10, hc⟩
    · rw [renderNat_ge10 n (by omega)]
      intro c hc
      rcases List.mem_append.mp hc with h | h
      · exact ih (n / 10) (Nat.div_lt_self (by omega) (by norm_num)) c h
      · simp only [List.mem_singleton] at h
        exact ⟨n % 10, Nat.mod_lt _ (by norm_num), h⟩

/-- `renderNat` is never empty. -/
theorem renderNat_ne_nil (n : Nat) : renderNat n ≠ [] := by
  by_cases h10 : n < 10
  · rw [renderNat_lt10 n h10]; simp
  · rw [renderNat_ge10 n (by omega)]; simp

/-- Folding a trailing digit. -/
theorem bytesToNat_append (A : Bytes) (c : Char) :
    bytesToNat (A ++ [c]) = bytesToNat A * 10 + digitVal c := by
  unfold bytesToNat
  rw [List.foldl_append]
  rfl

/-- Round trip: reading back a rendered natural. -/
theorem bytesToNat_renderNat (n : Nat) : bytesToNat (renderNat n) = n := by
  induction n using Nat.strong_induction_on with
  | _ n ih =>
    by_cases h10 : n < 10
    · rw [renderNat_lt10 n h10]
      show bytesToNat [Char.ofNat (48 + n)] = n
      unfold bytesToNat digitVal
      simp [(digitChar_facts n h10).1]
    · rw [renderNat_ge10 n (by omega), bytesToNat_append,
        ih (n / 10) (Nat.div_lt_self (by omega) (by norm_num))]
      unfold digitVal
      rw [(digitChar_facts (n % 10) (Nat.mod_lt _ (by norm_num))).1]
      omega

/-- `renderInt` on a non-negative integer. -/
theorem renderInt_nonneg (i : Int) (h : 0 ≤ i) : renderInt i = renderNat i.toNat := by
  unfold renderInt
  rw [if_neg (by omega)]

/-- `renderInt` on a negative integer. -/
theorem renderInt_neg_eq (i : Int) (h : i < 0) : renderInt i = '-' :: renderNat (-i).toNat := by
  unfold renderInt
  rw [if_pos h]

/-- `takeWhile` passes over a block that wholly satisfies the test. -/
theorem takeWhile_all_app (p : Char → Bool) (A B : Bytes) (h : ∀ a ∈ A, p a = true) :
    List.takeWhile p (A ++ B) = A ++ List.takeWhile p B := by
  induction A with
  | nil => rfl
  | cons a A ih =>
    simp only [List.cons_append, List.takeWhile_cons]
    rw [h a (by simp)]
    simp only [if_true]
    rw [ih (fun x hx => h x (by simp [hx]))]

/-- `dropWhile` passes over a block that wholly satisfies the test. -/
theorem dropWhile_all_app (p : Char → Bool) (A B : Bytes) (h : ∀ a ∈ A, p a = true) :
    List.dropWhile p (A ++ B) = List.dropWhile p B := by
  induction A with
  | nil => rfl
  | cons a A ih =>
    simp only [List.cons_append, List.dropWhile_cons]
    rw [h a (by simp)]
    simp only [if_true]
    exact ih (fun x hx => h x (by simp [hx]))

/-- `skipWs` is the identity on text starting with a non-space. -/
theorem skipWs_cons (c : Char) (l : Bytes) (h : isWsChar c = false) :
    skipWs (c :: l) = c :: l := by
  unfold skipWs
  rw [List.dropWhile_cons, h]
  simp

/-- Reading back a rendered natural followed by a delimiter. -/
theorem parseNatNum_render (n : Nat) (c : Char) (r : Bytes)
    (h1 : c.isDigit = false) (h2 : c ≠ '.') (h3 : c ≠ 'e') (h4 : c ≠ 'E') :
    parseNatNum (renderNat n ++ c :: r) = some (n, c :: r) := by
  have hall : ∀ a ∈ renderNat n, Char.isDigit a = true := by
    intro a ha
    obtain ⟨d, hd, rfl⟩ := renderNat_mem n a ha
    exact (digitChar_facts d hd).2.1
  unfold parseNatNum
  rw [takeWhile_all_app _ _ _ hall, dropWhile_all_app _ _ _ hall]
  rw [List.takeWhile_cons, h1]
  simp only [Bool.false_eq_true, if_false, List.append_nil]
  rw [List.dropWhile_cons, h1]
  simp only [Bool.false_eq_true, if_false]
  rw [if_neg (by simp [renderNat_ne_nil n])]
  rw [if_neg (by simp [List.head?_cons]; exact ⟨h2, h3, h4⟩)]
  rw [bytesToNat_renderNat]

/-- Reading back a rendered integer followed by a delimiter. -/
theorem parseIntNum_render (i : Int) (c : Char) (r : Bytes)
    (h1 : c.isDigit = false) (h2 : c ≠ '.') (h3 : c ≠ 'e') (h4 : c ≠ 'E') :
    parseIntNum (renderInt i ++ c :: r) = some (i, c :: r) := by
  by_cases hneg : i < 0
  · rw [renderInt_neg_eq i hneg]
    unfold parseIntNum
    rw [if_pos (by simp [List.head?_cons])]
    show (parseNatNum (renderNat (-i).toNat ++ c :: r)).map _ = _
    rw [parseNatNum_render _ c r h1 h2 h3 h4]
    have : ((-i).toNat : Int) = -i := Int.toNat_of_nonneg (by omega)
    simp [this]
  · rw [renderInt_nonneg i (by omega)]
    obtain ⟨h0, t0, hrn⟩ : ∃ h0 t0, renderNat i.toNat = h0 :: t0 := by
      cases hr : renderNat i.toNat with
      | nil => exact absurd hr (renderNat_ne_nil _)
      | cons a b => exact ⟨a, b, rfl⟩
    have hd0 : ∃ d, d < 10 ∧ h0 = Char.ofNat (48 + d) :=
      renderNat_mem i.toNat h0 (by rw [hrn]; simp)
    obtain ⟨d, hd, rfl⟩ := hd0
    unfold parseIntNum
    rw [hrn]
    rw [if_neg (by
      simp only [List.cons_append, List.head?_cons, Option.some.injEq]
      exact (digitChar_facts d hd).2.2.2.2.2.1)]
    rw [List.cons_append, ← List.cons_append, ← hrn]
    rw [parseNatNum_render _ c r h1 h2 h3 h4]
    simp [Int.toNat_of_nonneg (show (0:Int) ≤ i by omega)]

/-- Reading back a rendered integer as a JSON value. -/
theorem parseVal_renderInt (f : Nat) (i : Int) (c : Char) (r : Bytes)
    (h1 : c.isDigit = false) (h2 : c ≠ '.') (h3 : c ≠ 'e') (h4 : c ≠ 'E') :
    parseVal (f + 1) (renderInt i ++ c :: r) = some (.num i, c :: r) := by
  obtain ⟨h0, t0, hrn, hws, hnum, hlit, hq⟩ :
      ∃ h0 t0, renderInt i = h0 :: t0 ∧ isWsChar h0 = false ∧
        (h0 = '-' ∨ h0.isDigit = true) ∧
        ¬(h0 = '{' ∨ h0 = '[' ∨ h0 = 't' ∨ h0 = 'f' ∨ h0 = 'n') ∧ h0 ≠ '"' := by
    by_cases hneg : i < 0
    · refine ⟨'-', renderNat (-i).toNat, renderInt_neg_eq i hneg, by decide, Or.inl rfl,
        by decide, by decide⟩
    · rw [renderInt_nonneg i (by omega)]
      obtain ⟨h0, t0, hrn⟩ : ∃ h0 t0, renderNat i.toNat = h0 :: t0 := by
        cases hr : renderNat i.toNat with
        | nil => exact absurd hr (renderNat_ne_nil _)
        | cons a b => exact ⟨a, b, rfl⟩
      obtain ⟨d, hd, rfl⟩ := renderNat_mem i.toNat h0 (by rw [hrn]; simp)
      obtain ⟨_, hdig, hws, _, _, _, hqd, hlitd⟩ := digitChar_facts d hd
      exact ⟨_, t0, hrn, hws, Or.inr hdig, hlitd, hqd⟩
  rw [hrn, List.cons_append]
  simp only [parseVal]
  rw [skipWs_cons _ _ hws]
  dsimp only
  rw [if_neg (fun h => hlit (Or.inl h))]
  rw [if_neg (fun h => hlit (Or.inr (Or.inl h)))]
  rw [if_neg hq]
  rw [if_neg (fun h => hlit (Or.inr (Or.inr (Or.inl h))))]
  rw [if_neg (fun h => hlit (Or.inr (Or.inr (Or.inr (Or.inl h)))))]
  rw [if_neg (fun h => hlit (Or.inr (Or.inr (Or.inr (Or.inr h)))))]
  rw [if_pos hnum]
  rw [← List.cons_append, ← hrn, parseIntNum_render i c r h1 h2 h3 h4]
  rfl

/-- Reading a quote-free, escape-free string body up to its closing
quote. -/
theorem parseStrBody_exact (s rest : Bytes) (h : ∀ c ∈ s, isStrChar c = true) :
    parseStrBody (s ++ '"' :: rest) = some (s, rest) := by
  unfold parseStrBody
  have hdw : List.dropWhile isStrChar (s ++ '"' :: rest) = '"' :: rest := by
    rw [dropWhile_all_app _ _ _ h, List.dropWhile_cons]
    rw [show isStrChar '"' = false from rfl]
    simp
  have htw : List.takeWhile isStrChar (s ++ '"' :: rest) = s := by
    rw [takeWhile_all_app _ _ _ h, List.takeWhile_cons]
    rw [show isStrChar '"' = false from rfl]
    simp
  rw [hdw, htw]
  simp

/-- Reading a quoted string as a JSON value. -/
theorem parseVal_str (f : Nat) (s rest : Bytes) (h : ∀ c ∈ s, isStrChar c = true) :
    parseVal (f + 1) ('"' :: (s ++ '"' :: rest)) = some (.str s, rest) := by
  simp only [parseVal]
  rw [skipWs_cons _ _ (by decide)]
  dsimp only
  rw [if_neg (show ¬('"' = '{') by decide), if_neg (show ¬('"' = '[') by decide), if_pos rfl]
  rw [parseStrBody_exact s rest h]
  rfl

/-- Reading an object as a JSON value, given its field list parses. -/
theorem parseVal_obj (f : Nat) (r : Bytes) (fs : List (Bytes × Json)) (rest : Bytes)
    (h : parseFieldList f true r = some (fs, rest)) :
    parseVal (f + 1) ('{' :: r) = some (.obj fs, rest) := by
  simp only [parseVal]
  rw [skipWs_cons _ _ (by decide)]
  dsimp only
  rw [if_pos rfl, h]
  rfl

/-- One field step that closes the object: known key, value parsed by
hypothesis, followed directly by the closing brace. -/
theorem parseFieldList_last (f : Nat) (ae : Bool) (key : Bytes)
    (hkey : ∀ c ∈ key, isStrChar c = true) (rest r4 : Bytes) (v : Json)
    (hval : parseVal f rest = some (v, '}' :: r4)) :
    parseFieldList (f + 1) ae ('"' :: (key ++ '"' :: ':' :: rest)) = some ([(key, v)], r4) := by
  simp only [parseFieldList]
  rw [skipWs_cons _ _ (by decide)]
  dsimp only
  rw [if_neg (show ¬('"' = '}') by decide), if_pos rfl]
  rw [parseStrBody_exact key _ hkey]
  dsimp only
  rw [skipWs_cons _ _ (by decide)]
  dsimp only
  rw [if_pos rfl, hval]
  dsimp only
  rw [skipWs_cons _ _ (by decide)]
  dsimp only
  rw [if_neg (show ¬('}' = ',') by decide), if_pos rfl]

/-- One field step followed by a comma and the remaining fields. -/
theorem parseFieldList_cons (f : Nat) (ae : Bool) (key : Bytes)
    (hkey : ∀ c ∈ key, isStrChar c = true) (rest r4 rest2 : Bytes) (v : Json)
    (fs : List (Bytes × Json))
    (hval : parseVal f rest = some (v, ',' :: r4))
    (hrec : parseFieldList f false r4 = some (fs, rest2)) :
    parseFieldList (f + 1) ae ('"' :: (key ++ '"' :: ':' :: rest)) =
      some ((key, v) :: fs, rest2) := by
  simp only [parseFieldList]
  rw [skipWs_cons _ _ (by decide)]
  dsimp only
  rw [if_neg (show ¬('"' = '}') by decide), if_pos rfl]
  rw [parseStrBody_exact key _ hkey]
  dsimp only
  rw [skipWs_cons _ _ (by decide)]
  dsimp only
  rw [if_pos rfl, hval]
  dsimp only
  rw [skipWs_cons _ _ (by decide)]
  dsimp only
  rw [if_pos rfl, hrec]
  rfl

/-- The synthetic usage-event JSON body parses back to its value, for
any fuel margin and any token numbers. -/
theorem parseVal_usageJson (f : Nat) (i o : Int) :
    parseVal (f + 8) (usageJsonBytes i o) = some (usageJsonVal i o, []) := by
  have hTot : parseFieldList (f + 2) false
      ('"' :: ("total_tokens".toList ++ '"' :: ':' :: (renderInt (i + o) ++ '}' :: '}' :: []))) =
      some ([("total_tokens".toList, Json.num (i + o))], ['}']) :=
    parseFieldList_last (f + 1) false _ (by decide) _ _ _
      (parseVal_renderInt f (i + o) '}' ['}'] (by decide) (by decide) (by decide) (by decide))
  have hOut : parseFieldList (f + 3) false
      ('"' :: ("output_tokens".toList ++ '"' :: ':' ::
        (renderInt o ++ ',' :: '"' ::
          ("total_tokens".toList ++ '"' :: ':' :: (renderInt (i + o) ++ '}' :: '}' :: []))))) =
      some ([("output_tokens".toList, Json.num o),
             ("total_tokens".toList, Json.num (i + o))], ['}']) :=
    parseFieldList_cons (f + 2) false _ (by decide) _ _ _ _ _
      (parseVal_renderInt (f + 1) o ',' _ (by decide) (by decide) (by decide) (by decide))
      hTot
  have hIn : parseFieldList (f + 4) true
      ('"' :: ("input_tokens".toList ++ '"' :: ':' ::
        (renderInt i ++ ',' :: '"' ::
          ("output_tokens".toList ++ '"' :: ':' ::
            (renderInt o ++ ',' :: '"' ::
              ("total_tokens".toList ++ '"' :: ':' ::
                (renderInt (i + o) ++ '}' :: '}' :: []))))))) =
      some ([("input_tokens".toList, Json.num i),
             ("output_tokens".toList, Json.num o),
             ("total_tokens".toList, Json.num (i + o))], ['}']) :=
    parseFieldList_cons (f + 3) true _ (by decide) _ _ _ _ _
      (parseVal_renderInt (f + 2) i ',' _ (by decide) (by decide) (by decide) (by decide))
      hOut
  have hUsageVal : parseVal (f + 5)
      ('{' :: '"' :: ("input_tokens".toList ++ '"' :: ':' ::
        (renderInt i ++ ',' :: '"' ::
          ("output_tokens".toList ++ '"' :: ':' ::
            (renderInt o ++ ',' :: '"' ::
              ("total_tokens".toList ++ '"' :: ':' ::
                (renderInt (i + o) ++ '}' :: '}' :: []))))))) =
      some (.obj [("input_tokens".toList, Json.num i),
                  ("output_tokens".toList, Json.num o),
                  ("total_tokens".toList, Json.num (i + o))], ['}']) :=
    parseVal_obj (f + 4) _ _ _ hIn
  have hUsage : parseFieldList (f + 6) false
      ('"' :: ("usage".toList ++ '"' :: ':' ::
        ('{' :: '"' :: ("input_tokens".toList ++ '"' :: ':' ::
          (renderInt i ++ ',' :: '"' ::
            ("output_tokens".toList ++ '"' :: ':' ::
              (renderInt o ++ ',' :: '"' ::
                ("total_tokens".toList ++ '"' :: ':' ::
                  (renderInt (i + o) ++ '}' :: '}' :: []))))))))) =
      some ([("usage".toList,
              Json.obj [("input_tokens".toList, Json.num i),
                        ("output_tokens".toList, Json.num o),
                        ("total_tokens".toList, Json.num (i + o))])], []) :=
    parseFieldList_last (f + 5) false _ (by decide) _ _ _ hUsageVal
  have hType : parseFieldList (f + 7) true
      ('"' :: ("type".toList ++ '"' :: ':' ::
        ('"' :: ("usage_update".toList ++ '"' :: ',' :: '"' ::
          ("usage".toList ++ '"' :: ':' ::
            ('{' :: '"' :: ("input_tokens".toList ++ '"' :: ':' ::
              (renderInt i ++ ',' :: '"' ::
                ("output_tokens".toList ++ '"' :: ':' ::
                  (renderInt o ++ ',' :: '"' ::
                    ("total_tokens".toList ++ '"' :: ':' ::
                      (renderInt (i + o) ++ '}' :: '}' :: [])))))))))))) =
      some ([("type".toList, Json.str usageUpdateType),
             ("usage".toList,
              Json.obj [("input_tokens".toList, Json.num i),
                        ("output_tokens".toList, Json.num o),
                        ("total_tokens".toList, Json.num (i + o))])], []) :=
    parseFieldList_cons (f + 6) true _ (by decide) _ _ _ _ _
      (parseVal_str (f + 5) ("usage_update".toList) _ (by decide))
      hUsage
  show parseVal (f + 8)
      ('{' :: '"' :: ("type".toList ++ '"' :: ':' ::
        ('"' :: ("usage_update".toList ++ '"' :: ',' :: '"' ::
          ("usage".toList ++ '"' :: ':' ::
            ('{' :: '"' :: ("input_tokens".toList ++ '"' :: ':' ::
              (renderInt i ++ ',' :: '"' ::
                ("output_tokens".toList ++ '"' :: ':' ::
                  (renderInt o ++ ',' :: '"' ::
                    ("total_tokens".toList ++ '"' :: ':' ::
                      (renderInt (i + o) ++ '}' :: '}' :: [])))))))))))) = _
  exact parseVal_obj (f + 7) _ _ _ hType

/-- `dropWhile` is the identity when the head (if any) fails the test. -/
theorem dropWhile_eq_self_head (p : Char → Bool) (l : Bytes)
    (h : ∀ c, l.head? = some c → p c = false) : List.dropWhile p l = l := by
  cases l with
  | nil => rfl
  | cons c rest =>
    rw [List.dropWhile_cons, h c rfl]
    simp

/-- `trimSpace` fixes a string with no whitespace at either end. -/
theorem trimSpace_eq_self (l : Bytes) (h1 : List.dropWhile isWsChar l = l)
    (h2 : List.dropWhile isWsChar l.reverse = l.reverse) : trimSpace l = l := by
  unfold trimSpace
  rw [h1, h2, List.reverse_reverse]

/-- `trimSpace` absorbs a trailing blank-line separator. -/
theorem trimSpace_append_nn (l : Bytes) (hl : List.dropWhile isWsChar l = l) :
    trimSpace (l ++ ['\n', '\n']) = trimSpace l := by
  cases l with
  | nil => rfl
  | cons c rest =>
    have hc : isWsChar c = false := by
      by_cases h : isWsChar c = true
      · rw [List.dropWhile_cons, h] at hl
        simp only [if_true] at hl
        have hlen := congrArg List.length hl
        have hle := (List.dropWhile_suffix (l := rest) isWsChar).length_le
        simp only [List.length_cons] at hlen
        omega
      · simpa using h
    unfold trimSpace
    have h1 : List.dropWhile isWsChar ((c :: rest) ++ ['\n', '\n']) =
        (c :: rest) ++ ['\n', '\n'] := by
      rw [List.cons_append, List.dropWhile_cons, hc]
      simp
    rw [h1, hl, List.reverse_append]
    rw [show (['\n', '\n'] : Bytes).reverse = ['\n', '\n'] from rfl]
    rw [show (['\n', '\n'] : Bytes) ++ (c :: rest).reverse =
      '\n' :: '\n' :: (c :: rest).reverse from rfl]
    rw [List.dropWhile_cons, show isWsChar '\n' = true from rfl]
    rw [List.dropWhile_cons, show isWsChar '\n' = true from rfl]
    simp

/-- A newline-free string is a single SSE line. -/
theorem splitNL_single (l : Bytes) (h : ∀ c ∈ l, c ≠ '\n') : splitNL l = [l] := by
  induction l with
  | nil => rfl
  | cons c rest ih =>
    unfold splitNL
    rw [if_neg (h c (by simp))]
    rw [ih (fun x hx => h x (by simp [hx]))]

/-- Character classes of a rendered integer: no newline, no whitespace,
safe inside a JSON string. -/
theorem renderInt_char_facts (i : Int) :
    ∀ c ∈ renderInt i, c ≠ '\n' ∧ isWsChar c = false ∧ isStrChar c = true := by
  intro c hc
  by_cases hneg : i < 0
  · rw [renderInt_neg_eq i hneg] at hc
    rcases List.mem_cons.mp hc with rfl | hc2
    · exact ⟨by decide, by decide, by decide⟩
    · obtain ⟨d, hd, rfl⟩ := renderNat_mem _ c hc2
      obtain ⟨_, _, hws, hstr, hnl, _⟩ := digitChar_facts d hd
      exact ⟨hnl, hws, hstr⟩
  · rw [renderInt_nonneg i (by omega)] at hc
    obtain ⟨d, hd, rfl⟩ := renderNat_mem _ c hc
    obtain ⟨_, _, hws, hstr, hnl, _⟩ := digitChar_facts d hd
    exact ⟨hnl, hws, hstr⟩

/-- No character of the synthetic usage line is a newline. -/
theorem usageLine_no_nl (i o : Int) :
    ∀ c ∈ dataMark ++ usageJsonBytes i o, c ≠ '\n' := by
  intro c hc
  rcases List.mem_append.mp hc with h | h
  · fin_cases h <;> decide
  · unfold usageJsonBytes at h
    rcases List.mem_append.mp h with h | h
    · fin_cases h <;> decide
    rcases List.mem_append.mp h with h | h
    · exact (renderInt_char_facts i c h).1
    rcases List.mem_append.mp h with h | h
    · fin_cases h <;> decide
    rcases List.mem_append.mp h with h | h
    · exact (renderInt_char_facts o c h).1
    rcases List.mem_append.mp h with h | h
    · fin_cases h <;> decide
    rcases List.mem_append.mp h with h | h
    · exact (renderInt_char_facts (i + o) c h).1
    · fin_cases h <;> decide

/-- The synthetic usage line has no leading or trailing whitespace. -/
theorem trimSpace_usageLine (i o : Int) :
    trimSpace (dataMark ++ usageJsonBytes i o) = dataMark ++ usageJsonBytes i o := by
  apply trimSpace_eq_self
  · apply dropWhile_eq_self_head
    intro c hc
    rw [show (dataMark ++ usageJsonBytes i o).head? = some 'd' from rfl] at hc
    simp only [Option.some.injEq] at hc
    subst hc
    decide
  · apply dropWhile_eq_self_head
    intro c hc
    rw [List.head?_reverse] at hc
    have hlast : (dataMark ++ usageJsonBytes i o).getLast? = some '}' := by
      unfold usageJsonBytes
      rw [List.getLast?_append, List.getLast?_append, List.getLast?_append,
        List.getLast?_append, List.getLast?_append, List.getLast?_append,
        List.getLast?_append]
      rw [show ("\x7d\x7d".toList : Bytes).getLast? = some '}' from rfl]
      rfl
    rw [hlast] at hc
    simp only [Option.some.injEq] at hc
    subst hc
    decide

/-- A substring occurrence makes `containsSub` true. -/
theorem containsSub_of_within (s sub : Bytes) (h : sub <:+: s) : containsSub s sub = true := by
  induction s with
  | nil =>
    have : sub = [] := List.eq_nil_of_infix_nil h
    subst this
    rfl
  | cons c rest ih =>
    unfold containsSub
    rcases List.infix_cons_iff.mp h with hp | hi
    · rw [List.isPrefixOf_iff_prefix.mpr hp]
      simp
    · rw [ih hi]
      simp

/-- The synthetic usage body is long enough for the length-based fuel. -/
theorem usageJsonBytes_long (i o : Int) : 7 ≤ (usageJsonBytes i o).length := by
  unfold usageJsonBytes
  rw [List.length_append]
  have h44 : ("\x7b\"type\":\"usage_update\",\"usage\":\x7b\"input_tokens\":".toList : Bytes).length
      = 47 := by decide
  omega

/-- The synthetic usage-event body round-trips through `json.Unmarshal`'s
driver. -/
theorem parseJson_usageJson (i o : Int) :
    parseJson (usageJsonBytes i o) = some (usageJsonVal i o) := by
  unfold parseJson
  obtain ⟨k, hk⟩ : ∃ k, (usageJsonBytes i o).length + 1 = k + 8 :=
    ⟨(usageJsonBytes i o).length - 7, by have := usageJsonBytes_long i o; omega⟩
  rw [hk, parseVal_usageJson k i o]
  rfl

/-- The captured stream usage is extracted from the synthetic usage
frame with total equal to input plus output. -/
theorem extract_usageUpdateFrame (i o : Int) :
    extractUsageFromSSE (usageUpdateFrame i o) = some ⟨i, o, i + o, i, o⟩ := by
  have hinfix : usageUpdateType <:+: usageUpdateFrame i o := by
    have h1 : usageUpdateType <:+:
        ("\x7b\"type\":\"usage_update\",\"usage\":\x7b\"input_tokens\":".toList : Bytes) := by
      decide
    have h2 : ("\x7b\"type\":\"usage_update\",\"usage\":\x7b\"input_tokens\":".toList : Bytes) <+:
        usageJsonBytes i o := by
      unfold usageJsonBytes
      exact List.prefix_append _ _
    have h3 : usageJsonBytes i o <:+: usageUpdateFrame i o := by
      unfold usageUpdateFrame dataFrame
      exact List.infix_append _ _ _
    exact (h1.trans h2.isInfix).trans h3
  unfold extractUsageFromSSE
  rw [containsSub_of_within _ _ hinfix]
  simp only [if_true]
  have hhead : List.dropWhile isWsChar (dataMark ++ usageJsonBytes i o) =
      dataMark ++ usageJsonBytes i o := by
    apply dropWhile_eq_self_head
    intro c hc
    rw [show (dataMark ++ usageJsonBytes i o).head? = some 'd' from rfl] at hc
    simp only [Option.some.injEq] at hc
    subst hc
    decide
  have htrim : trimSpace (usageUpdateFrame i o) = dataMark ++ usageJsonBytes i o := by
    unfold usageUpdateFrame dataFrame
    rw [trimSpace_append_nn _ hhead]
    exact trimSpace_usageLine i o
  rw [htrim]
  rw [splitNL_single _ (usageLine_no_nl i o)]
  unfold extractDataLines
  rw [show dataMark.isPrefixOf (dataMark ++ usageJsonBytes i o) = true from
    List.isPrefixOf_iff_prefix.mpr (List.prefix_append _ _)]
  simp only [if_true]
  rw [show (dataMark ++ usageJsonBytes i o).drop 6 = usageJsonBytes i o from by
    rw [show (6 : Nat) = dataMark.length from rfl]
    exact List.drop_left _ _]
  rw [parseJson_usageJson i o]
  dsimp only
  rw [show unmarshalUsageEvent (usageJsonVal i o) =
    some ⟨usageUpdateType, i, o, i + o⟩ from rfl]
  rfl

/-- The empty payload and the `[DONE]` sentinel do not parse as JSON. -/
theorem parseJson_nil : parseJson ([] : Bytes) = none := rfl

/-- The `[DONE]` sentinel does not parse as JSON. -/
theorem parseJson_doneMark : parseJson doneMark = none := rfl

/-- The line scan on a first forwardable `data: ` line: the result depends
only on that line's payload; every later line is ignored. -/
theorem processDataLines_data (X : Bytes) (post : List Bytes)
    (hne : X ≠ []) (hnd : X ≠ doneMark) :
    processDataLines ((dataMark ++ X) :: post) =
      (match terminalUsageOf X with
       | some u => some (usageUpdateFrame u.input_tokens u.output_tokens)
       | none => some (dataFrame X)) := by
  unfold processDataLines
  rw [show dataMark.isPrefixOf (dataMark ++ X) = true from
    List.isPrefixOf_iff_prefix.mpr (List.prefix_append _ _)]
  simp only [if_true]
  rw [show (dataMark ++ X).drop 6 = X from by
    rw [show (6 : Nat) = dataMark.length from rfl]
    exact List.drop_left _ _]
  have hcond : ¬(X = [] ∨ X = doneMark) := by simp [hne, hnd]
  rw [if_neg hcond]
  unfold terminalUsageOf
  cases hp : parseJson X with
  | none => rfl
  | some j =>
    dsimp only
    cases hu : unmarshalStreamEvent j with
    | none => rfl
    | some ev =>
      dsimp only
      cases hm : ev.message with
      | none => rfl
      | some mu =>
        cases mu with
        | none => rfl
        | some u =>
          dsimp only
          by_cases ht : ev.type = msgStopType
          · rw [if_pos ht, if_pos ht]
          · rw [if_neg ht, if_neg ht]

/-- The line scan passes over non-`data:` lines (such as `event:` headers)
and over `data: ` lines with an empty or `[DONE]` payload. -/
theorem processDataLines_skippable : ∀ (pre rest : List Bytes),
    (∀ l ∈ pre, dataMark.isPrefixOf l = true →
      l.drop 6 = [] ∨ l.drop 6 = doneMark) →
    processDataLines (pre ++ rest) = processDataLines rest := by
  intro pre
  induction pre with
  | nil => intro rest h; rw [List.nil_append]
  | cons a pre2 ih =>
    intro rest h
    rw [List.cons_append]
    unfold processDataLines
    have hrec := (ih rest (fun l hl hpl => h l (List.mem_cons_of_mem _ hl) hpl)).trans
      (processDataLines.eq_def rest)
    by_cases hp : dataMark.isPrefixOf a = true
    · rw [if_pos hp]
      dsimp only
      rcases h a (List.mem_cons_self _ _) hp with h2 | h2
      · rw [if_pos (Or.inl h2)]
        exact hrec
      · rw [if_pos (Or.inr h2)]
        exact hrec
    · rw [if_neg hp]
      exact hrec

/-- Forwarding is not byte-for-byte: whatever precedes or follows the
first forwardable `data: ` line is dropped and only that payload is
re-framed. -/
theorem processDataLines_forward (pre : List Bytes) (X : Bytes) (post : List Bytes)
    (hskip : ∀ l ∈ pre, dataMark.isPrefixOf l = true →
      l.drop 6 = [] ∨ l.drop 6 = doneMark)
    (hne : X ≠ []) (hnd : X ≠ doneMark) (hterm : terminalUsageOf X = none) :
    processDataLines (pre ++ (dataMark ++ X) :: post) = some (dataFrame X) := by
  rw [processDataLines_skippable pre _ hskip, processDataLines_data X post hne hnd,
    hterm]

/-- A complete event with no forwardable payload produces nothing. -/
theorem processDataLines_dropped (lines : List Bytes)
    (hskip : ∀ l ∈ lines, dataMark.isPrefixOf l = true →
      l.drop 6 = [] ∨ l.drop 6 = doneMark) :
    processDataLines lines = none := by
  have h := processDataLines_skippable lines [] hskip
  rw [List.append_nil] at h
  rw [h]
  rfl

/-- `processSSEEvent` on one complete single-line data event: a terminal
usage summary becomes the synthetic usage frame, everything else is
re-framed unchanged. -/
theorem processSSEEvent_dataLine (X : Bytes)
    (hnl : ∀ c ∈ X, c ≠ '\n')
    (htrim : trimSpace (dataMark ++ X) = dataMark ++ X)
    (hne : X ≠ []) (hnd : X ≠ doneMark) :
    processSSEEvent (dataMark ++ X) =
      (match terminalUsageOf X with
       | some u => some (usageUpdateFrame u.input_tokens u.output_tokens)
       | none => some (dataFrame X)) := by
  unfold processSSEEvent
  rw [htrim]
  have hnl2 : ∀ c ∈ dataMark ++ X, c ≠ '\n' := by
    intro c hc
    rcases List.mem_append.mp hc with h | h
    · fin_cases h <;> decide
    · exact hnl c h
  rw [splitNL_single _ hnl2]
  exact processDataLines_data X [] hne hnd

/-- `extractUsageFromSSE` passes over a re-framed payload that is not
usage_update-typed. -/
theorem extract_dataFrame_none (X : Bytes)
    (hnl : ∀ c ∈ X, c ≠ '\n')
    (htrim : trimSpace (dataMark ++ X) = dataMark ++ X)
    (hUU : isUsageUpdatePayload X = false) :
    extractUsageFromSSE (dataFrame X) = none := by
  unfold extractUsageFromSSE
  cases hcont : containsSub (dataFrame X) usageUpdateType with
  | false => simp [hcont]
  | true =>
    simp only [hcont, if_true]
    have hhead : List.dropWhile isWsChar (dataMark ++ X) = dataMark ++ X := by
      apply dropWhile_eq_self_head
      intro c hc
      rw [show (dataMark ++ X).head? = some 'd' from rfl] at hc
      simp only [Option.some.injEq] at hc
      subst hc
      decide
    have ht2 : trimSpace (dataFrame X) = dataMark ++ X := by
      unfold dataFrame
      rw [trimSpace_append_nn _ hhead]
      exact htrim
    rw [ht2]
    have hnl2 : ∀ c ∈ dataMark ++ X, c ≠ '\n' := by
      intro c hc
      rcases List.mem_append.mp hc with h | h
      · fin_cases h <;> decide
      · exact hnl c h
    rw [splitNL_single _ hnl2]
    unfold extractDataLines
    rw [show dataMark.isPrefixOf (dataMark ++ X) = true from
      List.isPrefixOf_iff_prefix.mpr (List.prefix_append _ _)]
    simp only [if_true]
    rw [show (dataMark ++ X).drop 6 = X from by
      rw [show (6 : Nat) = dataMark.length from rfl]
      exact List.drop_left _ _]
    unfold isUsageUpdatePayload at hUU
    cases hp : parseJson X with
    | none => rfl
    | some j =>
      dsimp only
      rw [hp] at hUU
      dsimp only at hUU
      cases hu : unmarshalUsageEvent j with
      | none => rfl
      | some p =>
        rw [hu] at hUU
        dsimp only at hUU
        dsimp only
        rw [if_neg (of_decide_eq_false hUU)]
        rfl

theorem skipWs_suffix (l : Bytes) : skipWs l <:+ l := List.dropWhile_suffix _

theorem parseStrBody_suffix (l s rest : Bytes) (h : parseStrBody l = some (s, rest)) :
    rest <:+ l := by
  unfold parseStrBody at h
  dsimp only at h
  split_ifs at h
  injection h with h1
  injection h1 with h2 h3
  rw [← h3]
  exact (List.tail_suffix _).trans (List.dropWhile_suffix _)

theorem parseStrBody_front (l s rest : Bytes) (h : parseStrBody l = some (s, rest)) :
    s <+: l := by
  unfold parseStrBody at h
  dsimp only at h
  split_ifs at h
  injection h with h1
  injection h1 with h2 h3
  rw [← h2]
  exact List.takeWhile_prefix _

theorem parseNatNum_suffix (l : Bytes) (n : Nat) (rest : Bytes)
    (h : parseNatNum l = some (n, rest)) : rest <:+ l := by
  unfold parseNatNum at h
  dsimp only at h
  split_ifs at h
  injection h with h1
  injection h1 with h2 h3
  rw [← h3]
  exact List.dropWhile_suffix _

theorem parseIntNum_suffix (l : Bytes) (i : Int) (rest : Bytes)
    (h : parseIntNum l = some (i, rest)) : rest <:+ l := by
  unfold parseIntNum at h
  split_ifs at h with hm
  · rw [Option.map_eq_some'] at h
    obtain ⟨⟨n, r0⟩, hp, he⟩ := h
    injection he with he1 he2
    rw [← he2]
    exact (parseNatNum_suffix _ _ _ hp).trans (List.tail_suffix _)
  · rw [Option.map_eq_some'] at h
    obtain ⟨⟨n, r0⟩, hp, he⟩ := h
    injection he with he1 he2
    rw [← he2]
    exact parseNatNum_suffix _ _ _ hp

/-- The text remaining after any successful parse is a suffix of the
input: the recursive descent only ever consumes from the front. -/
theorem parse_rest_suffix : ∀ fuel : Nat,
    (∀ l j r, parseVal fuel l = some (j, r) → r <:+ l) ∧
    (∀ ae l fs r, parseFieldList fuel ae l = some (fs, r) → r <:+ l) ∧
    (∀ ae l es r, parseElemList fuel ae l = some (es, r) → r <:+ l) := by
  intro fuel
  induction fuel with
  | zero =>
    refine ⟨?_, ?_, ?_⟩
    · intro l j r h; exact absurd h (by simp [parseVal])
    · intro ae l fs r h; exact absurd h (by simp [parseFieldList])
    · intro ae l es r h; exact absurd h (by simp [parseElemList])
  | succ fuel IH =>
    obtain ⟨IH1, IH2, IH3⟩ := IH
    refine ⟨?_, ?_, ?_⟩
    · intro l j r h
      unfold parseVal at h
      cases hsw : skipWs l with
      | nil => rw [hsw] at h; simp at h
      | cons c cr =>
        rw [hsw] at h
        dsimp only at h
        have hccr : c :: cr <:+ l := hsw ▸ skipWs_suffix l
        have hcr : cr <:+ l := (List.suffix_cons c cr).trans hccr
        by_cases h1 : c = '{'
        · rw [if_pos h1] at h
          rw [Option.map_eq_some'] at h
          obtain ⟨⟨fs, r0⟩, hp, he⟩ := h
          cases he
          exact (IH2 true cr fs r0 hp).trans hcr
        · rw [if_neg h1] at h
          by_cases h2 : c = '['
          · rw [if_pos h2] at h
            rw [Option.map_eq_some'] at h
            obtain ⟨⟨es, r0⟩, hp, he⟩ := h
            cases he
            exact (IH3 true cr es r0 hp).trans hcr
          · rw [if_neg h2] at h
            by_cases h3 : c = '"'
            · rw [if_pos h3] at h
              rw [Option.map_eq_some'] at h
              obtain ⟨⟨s0, r0⟩, hp, he⟩ := h
              cases he
              exact (parseStrBody_suffix cr s0 r0 hp).trans hcr
            · rw [if_neg h3] at h
              by_cases h4 : c = 't'
              · rw [if_pos h4] at h
                by_cases h5 : ['r', 'u', 'e'].isPrefixOf cr = true
                · rw [if_pos h5] at h
                  cases h
                  exact (List.drop_suffix 3 cr).trans hcr
                · rw [if_neg h5] at h
                  simp at h
              · rw [if_neg h4] at h
                by_cases h6 : c = 'f'
                · rw [if_pos h6] at h
                  by_cases h7 : ['a', 'l', 's', 'e'].isPrefixOf cr = true
                  · rw [if_pos h7] at h
                    cases h
                    exact (List.drop_suffix 4 cr).trans hcr
                  · rw [if_neg h7] at h
                    simp at h
                · rw [if_neg h6] at h
                  by_cases h8 : c = 'n'
                  · rw [if_pos h8] at h
                    by_cases h9 : ['u', 'l', 'l'].isPrefixOf cr = true
                    · rw [if_pos h9] at h
                      cases h
                      exact (List.drop_suffix 3 cr).trans hcr
                    · rw [if_neg h9] at h
                      simp at h
                  · rw [if_neg h8] at h
                    by_cases h10 : c = '-' ∨ c.isDigit = true
                    · rw [if_pos h10] at h
                      rw [Option.map_eq_some'] at h
                      obtain ⟨⟨n0, r0⟩, hp, he⟩ := h
                      cases he
                      exact (parseIntNum_suffix _ _ _ hp).trans hccr
                    · rw [if_neg h10] at h
                      simp at h
    · intro ae l fs r h
      unfold parseFieldList at h
      cases hsw : skipWs l with
      | nil => rw [hsw] at h; simp at h
      | cons c cr =>
        rw [hsw] at h
        dsimp only at h
        have hccr : c :: cr <:+ l := hsw ▸ skipWs_suffix l
        have hcr : cr <:+ l := (List.suffix_cons c cr).trans hccr
        by_cases h1 : c = '}'
        · rw [if_pos h1] at h
          by_cases h2 : ae = true
          · rw [if_pos h2] at h
            cases h
            exact hcr
          · rw [if_neg h2] at h
            simp at h
        · rw [if_neg h1] at h
          by_cases h2 : c = '"'
          · rw [if_pos h2] at h
            cases hps : parseStrBody cr with
            | none => rw [hps] at h; simp at h
            | some p0 =>
              obtain ⟨key, r1⟩ := p0
              rw [hps] at h
              dsimp only at h
              have hr1 : r1 <:+ l := (parseStrBody_suffix cr key r1 hps).trans hcr
              cases hsw1 : skipWs r1 with
              | nil => rw [hsw1] at h; simp at h
              | cons c1 r2 =>
                rw [hsw1] at h
                dsimp only at h
                have hr2 : r2 <:+ l :=
                  ((List.suffix_cons c1 r2).trans (hsw1 ▸ skipWs_suffix r1)).trans hr1
                by_cases hc1 : c1 = ':'
                · rw [if_pos hc1] at h
                  cases hv : parseVal fuel r2 with
                  | none => rw [hv] at h; simp at h
                  | some p1 =>
                    obtain ⟨v, r3⟩ := p1
                    rw [hv] at h
                    dsimp only at h
                    have hr3 : r3 <:+ l := (IH1 r2 v r3 hv).trans hr2
                    cases hsw3 : skipWs r3 with
                    | nil => rw [hsw3] at h; simp at h
                    | cons c2 r4 =>
                      rw [hsw3] at h
                      dsimp only at h
                      have hr4 : r4 <:+ l :=
                        ((List.suffix_cons c2 r4).trans (hsw3 ▸ skipWs_suffix r3)).trans hr3
                      by_cases hcm : c2 = ','
                      · rw [if_pos hcm] at h
                        rw [Option.map_eq_some'] at h
                        obtain ⟨⟨fs5, r5⟩, hp, he⟩ := h
                        cases he
                        exact (IH2 false r4 fs5 r5 hp).trans hr4
                      · rw [if_neg hcm] at h
                        by_cases hcb : c2 = '}'
                        · rw [if_pos hcb] at h
                          cases h
                          exact hr4
                        · rw [if_neg hcb] at h
                          simp at h
                · rw [if_neg hc1] at h
                  simp at h
          · rw [if_neg h2] at h
            simp at h
    · intro ae l es r h
      unfold parseElemList at h
      cases hsw : skipWs l with
      | nil => rw [hsw] at h; simp at h
      | cons c cr =>
        rw [hsw] at h
        dsimp only at h
        by_cases h1 : c = ']' ∧ ae = true
        · rw [if_pos h1] at h
          cases h
          exact (List.tail_suffix _).trans (hsw ▸ skipWs_suffix l)
        · rw [if_neg h1] at h
          cases hv : parseVal fuel l with
          | none => rw [hv] at h; simp at h
          | some p1 =>
            obtain ⟨v, r1⟩ := p1
            rw [hv] at h
            dsimp only at h
            have hr1 : r1 <:+ l := IH1 l v r1 hv
            cases hsw1 : skipWs r1 with
            | nil => rw [hsw1] at h; simp at h
            | cons c1 r2 =>
              rw [hsw1] at h
              dsimp only at h
              have hr2 : r2 <:+ l :=
                ((List.suffix_cons c1 r2).trans (hsw1 ▸ skipWs_suffix r1)).trans hr1
              by_cases hcm : c1 = ','
              · rw [if_pos hcm] at h
                rw [Option.map_eq_some'] at h
                obtain ⟨⟨es5, r5⟩, hp, he⟩ := h
                cases he
                exact (IH3 false r2 es5 r5 hp).trans hr2
              · rw [if_neg hcm] at h
                by_cases hcb : c1 = ']'
                · rw [if_pos hcb] at h
                  cases h
                  exact hr2
                · rw [if_neg hcb] at h
                  simp at h

/-- Every string leaf of a successfully parsed JSON value is a contiguous
substring of the parser input: the escape-free string syntax accepted by
the embedded grammar copies string bytes verbatim from the input. -/
theorem parse_strs_within : ∀ fuel : Nat,
    (∀ l j r, parseVal fuel l = some (j, r) → ∀ s ∈ jsonStrs j, s <:+: l) ∧
    (∀ ae l fs r, parseFieldList fuel ae l = some (fs, r) →
      ∀ s ∈ jsonStrsFields fs, s <:+: l) ∧
    (∀ ae l es r, parseElemList fuel ae l = some (es, r) →
      ∀ s ∈ jsonStrsList es, s <:+: l) := by
  intro fuel
  induction fuel with
  | zero =>
    refine ⟨?_, ?_, ?_⟩
    · intro l j r h; exact absurd h (by simp [parseVal])
    · intro ae l fs r h; exact absurd h (by simp [parseFieldList])
    · intro ae l es r h; exact absurd h (by simp [parseElemList])
  | succ fuel IH =>
    obtain ⟨IH1, IH2, IH3⟩ := IH
    refine ⟨?_, ?_, ?_⟩
    · intro l j r h
      unfold parseVal at h
      cases hsw : skipWs l with
      | nil => rw [hsw] at h; simp at h
      | cons c cr =>
        rw [hsw] at h
        dsimp only at h
        have hccr : c :: cr <:+ l := hsw ▸ skipWs_suffix l
        have hcr : cr <:+ l := (List.suffix_cons c cr).trans hccr
        by_cases h1 : c = '{'
        · rw [if_pos h1] at h
          rw [Option.map_eq_some'] at h
          obtain ⟨⟨fs, r0⟩, hp, he⟩ := h
          cases he
          intro s hs
          dsimp only [jsonStrs] at hs
          exact (IH2 true cr fs r0 hp s hs).trans hcr.isInfix
        · rw [if_neg h1] at h
          by_cases h2 : c = '['
          · rw [if_pos h2] at h
            rw [Option.map_eq_some'] at h
            obtain ⟨⟨es, r0⟩, hp, he⟩ := h
            cases he
            intro s hs
            dsimp only [jsonStrs] at hs
            exact (IH3 true cr es r0 hp s hs).trans hcr.isInfix
          · rw [if_neg h2] at h
            by_cases h3 : c = '"'
            · rw [if_pos h3] at h
              rw [Option.map_eq_some'] at h
              obtain ⟨⟨s0, r0⟩, hp, he⟩ := h
              cases he
              intro s hs
              rw [show jsonStrs (Json.str s0) = [s0] from rfl, List.mem_singleton] at hs
              subst hs
              exact ((parseStrBody_front cr s r0 hp).isInfix).trans hcr.isInfix
            · rw [if_neg h3] at h
              by_cases h4 : c = 't'
              · rw [if_pos h4] at h
                by_cases h5 : ['r', 'u', 'e'].isPrefixOf cr = true
                · rw [if_pos h5] at h
                  cases h
                  intro s hs
                  simp [jsonStrs] at hs
                · rw [if_neg h5] at h
                  simp at h
              · rw [if_neg h4] at h
                by_cases h6 : c = 'f'
                · rw [if_pos h6] at h
                  by_cases h7 : ['a', 'l', 's', 'e'].isPrefixOf cr = true
                  · rw [if_pos h7] at h
                    cases h
                    intro s hs
                    simp [jsonStrs] at hs
                  · rw [if_neg h7] at h
                    simp at h
                · rw [if_neg h6] at h
                  by_cases h8 : c = 'n'
                  · rw [if_pos h8] at h
                    by_cases h9 : ['u', 'l', 'l'].isPrefixOf cr = true
                    · rw [if_pos h9] at h
                      cases h
                      intro s hs
                      simp [jsonStrs] at hs
                    · rw [if_neg h9] at h
                      simp at h
                  · rw [if_neg h8] at h
                    by_cases h10 : c = '-' ∨ c.isDigit = true
                    · rw [if_pos h10] at h
                      rw [Option.map_eq_some'] at h
                      obtain ⟨⟨n0, r0⟩, hp, he⟩ := h
                      cases he
                      intro s hs
                      simp [jsonStrs] at hs
                    · rw [if_neg h10] at h
                      simp at h
    · intro ae l fs r h
      unfold parseFieldList at h
      cases hsw : skipWs l with
      | nil => rw [hsw] at h; simp at h
      | cons c cr =>
        rw [hsw] at h
        dsimp only at h
        have hccr : c :: cr <:+ l := hsw ▸ skipWs_suffix l
        have hcr : cr <:+ l := (List.suffix_cons c cr).trans hccr
        by_cases h1 : c = '}'
        · rw [if_pos h1] at h
          by_cases h2 : ae = true
          · rw [if_pos h2] at h
            cases h
            intro s hs
            simp [jsonStrsFields] at hs
          · rw [if_neg h2] at h
            simp at h
        · rw [if_neg h1] at h
          by_cases h2 : c = '"'
          · rw [if_pos h2] at h
            cases hps : parseStrBody cr with
            | none => rw [hps] at h; simp at h
            | some p0 =>
              obtain ⟨key, r1⟩ := p0
              rw [hps] at h
              dsimp only at h
              have hr1 : r1 <:+ l := (parseStrBody_suffix cr key r1 hps).trans hcr
              cases hsw1 : skipWs r1 with
              | nil => rw [hsw1] at h; simp at h
              | cons c1 r2 =>
                rw [hsw1] at h
                dsimp only at h
                have hr2 : r2 <:+ l :=
                  ((List.suffix_cons c1 r2).trans (hsw1 ▸ skipWs_suffix r1)).trans hr1
                by_cases hc1 : c1 = ':'
                · rw [if_pos hc1] at h
                  cases hv : parseVal fuel r2 with
                  | none => rw [hv] at h; simp at h
                  | some p1 =>
                    obtain ⟨v, r3⟩ := p1
                    rw [hv] at h
                    dsimp only at h
                    have hr3 : r3 <:+ l := ((parse_rest_suffix fuel).1 r2 v r3 hv).trans hr2
                    cases hsw3 : skipWs r3 with
                    | nil => rw [hsw3] at h; simp at h
                    | cons c2 r4 =>
                      rw [hsw3] at h
                      dsimp only at h
                      have hr4 : r4 <:+ l :=
                        ((List.suffix_cons c2 r4).trans (hsw3 ▸ skipWs_suffix r3)).trans hr3
                      by_cases hcm : c2 = ','
                      · rw [if_pos hcm] at h
                        rw [Option.map_eq_some'] at h
                        obtain ⟨⟨fs5, r5⟩, hp, he⟩ := h
                        cases he
                        intro s hs
                        dsimp only [jsonStrsFields] at hs
                        rcases List.mem_append.mp hs with hL | hR
                        · exact (IH1 r2 v r3 hv s hL).trans hr2.isInfix
                        · exact (IH2 false r4 fs5 r5 hp s hR).trans hr4.isInfix
                      · rw [if_neg hcm] at h
                        by_cases hcb : c2 = '}'
                        · rw [if_pos hcb] at h
                          cases h
                          intro s hs
                          simp only [jsonStrsFields, List.append_nil] at hs
                          exact (IH1 r2 v r3 hv s hs).trans hr2.isInfix
                        · rw [if_neg hcb] at h
                          simp at h
                · rw [if_neg hc1] at h
                  simp at h
          · rw [if_neg h2] at h
            simp at h
    · intro ae l es r h
      unfold parseElemList at h
      cases hsw : skipWs l with
      | nil => rw [hsw] at h; simp at h
      | cons c cr =>
        rw [hsw] at h
        dsimp only at h
        by_cases h1 : c = ']' ∧ ae = true
        · rw [if_pos h1] at h
          cases h
          intro s hs
          simp [jsonStrsList] at hs
        · rw [if_neg h1] at h
          cases hv : parseVal fuel l with
          | none => rw [hv] at h; simp at h
          | some p1 =>
            obtain ⟨v, r1⟩ := p1
            rw [hv] at h
            dsimp only at h
            have hr1 : r1 <:+ l := (parse_rest_suffix fuel).1 l v r1 hv
            cases hsw1 : skipWs r1 with
            | nil => rw [hsw1] at h; simp at h
            | cons c1 r2 =>
              rw [hsw1] at h
              dsimp only at h
              have hr2 : r2 <:+ l :=
                ((List.suffix_cons c1 r2).trans (hsw1 ▸ skipWs_suffix r1)).trans hr1
              by_cases hcm : c1 = ','
              · rw [if_pos hcm] at h
                rw [Option.map_eq_some'] at h
                obtain ⟨⟨es5, r5⟩, hp, he⟩ := h
                cases he
                intro s hs
                dsimp only [jsonStrsList] at hs
                rcases List.mem_append.mp hs with hL | hR
                · exact (IH1 l v r1 hv s hL)
                · exact (IH3 false r2 es5 r5 hp s hR).trans hr2.isInfix
              · rw [if_neg hcm] at h
                by_cases hcb : c1 = ']'
                · rw [if_pos hcb] at h
                  cases h
                  intro s hs
                  simp only [jsonStrsList, List.append_nil] at hs
                  exact IH1 l v r1 hv s hs
                · rw [if_neg hcb] at h
                  simp at h

theorem parseJson_strs_within (X : Bytes) (j : Json) (h : parseJson X = some j) :
    ∀ s ∈ jsonStrs j, s <:+: X := by
  unfold parseJson at h
  cases hp : parseVal (X.length + 1) X with
  | none => rw [hp] at h; simp at h
  | some pr =>
    obtain ⟨v, rest⟩ := pr
    rw [hp] at h
    dsimp only at h
    split_ifs at h
    injection h with h1
    subst h1
    exact (parse_strs_within (X.length + 1)).1 X v rest hp

theorem lookupField_mem (fs : List (Bytes × Json)) (key : Bytes) (v : Json)
    (h : lookupField fs key = some v) : ∃ k, (k, v) ∈ fs := by
  unfold lookupField at h
  suffices H : ∀ (acc : Option Json),
      fs.foldl (fun acc f => if f.1 = key then some f.2 else acc) acc = some v →
      (∃ k, (k, v) ∈ fs) ∨ acc = some v by
    rcases H none h with h1 | h1
    · exact h1
    · exact absurd h1 (by simp)
  clear h
  induction fs with
  | nil => intro acc h; exact Or.inr h
  | cons f t ih =>
    intro acc h
    rw [List.foldl_cons] at h
    rcases ih _ h with ⟨k, hk⟩ | h1
    · exact Or.inl ⟨k, List.mem_cons_of_mem _ hk⟩
    · by_cases hf : f.1 = key
      · rw [if_pos hf] at h1
        injection h1 with h2
        exact Or.inl ⟨f.1, by rw [← h2, Prod.mk.eta]; exact List.mem_cons_self _ _⟩
      · rw [if_neg hf] at h1
        exact Or.inr h1

theorem mem_strs_of_field : ∀ (fs : List (Bytes × Json)) (k : Bytes) (v : Json),
    (k, v) ∈ fs → ∀ s ∈ jsonStrs v, s ∈ jsonStrsFields fs := by
  intro fs
  induction fs with
  | nil => intro k v hm; cases hm
  | cons f t ih =>
    intro k v hm s hs
    obtain ⟨a, b⟩ := f
    rcases List.mem_cons.mp hm with h1 | h1
    · injection h1 with h2 h3
      subst h3
      exact List.mem_append_left _ hs
    · exact List.mem_append_right _ (ih k v h1 s hs)

theorem goStringField_strs (fs : List (Bytes × Json)) (key ty : Bytes)
    (h : goStringField fs key = some ty) (hne : ty ≠ []) :
    ty ∈ jsonStrsFields fs := by
  unfold goStringField at h
  cases hlf : lookupField fs key with
  | none =>
    rw [hlf] at h
    injection h with h1
    exact absurd h1.symm hne
  | some v =>
    rw [hlf] at h
    cases v with
    | null =>
      injection h with h1
      exact absurd h1.symm hne
    | str s =>
      injection h with h1
      obtain ⟨k, hk⟩ := lookupField_mem fs key _ hlf
      rw [← h1]
      exact mem_strs_of_field fs k _ hk s (List.mem_singleton.mpr rfl)
    | bool b => simp at h
    | num n => simp at h
    | arr es => simp at h
    | obj o => simp at h

/-- A nonempty `type` string decoded by `unmarshalUsageEvent` is one of
the string leaves of the unmarshalled JSON value. -/
theorem usageType_strs (j : Json) (p : UsageEventPayload)
    (hu : unmarshalUsageEvent j = some p) (hne : p.type ≠ []) :
    p.type ∈ jsonStrs j := by
  cases j with
  | null =>
    rw [show unmarshalUsageEvent Json.null = some ⟨[], 0, 0, 0⟩ from rfl] at hu
    injection hu with h1
    rw [← h1] at hne
    exact absurd rfl hne
  | bool b => simp [unmarshalUsageEvent] at hu
  | num n => simp [unmarshalUsageEvent] at hu
  | str s => simp [unmarshalUsageEvent] at hu
  | arr es => simp [unmarshalUsageEvent] at hu
  | obj fs =>
    unfold unmarshalUsageEvent at hu
    dsimp only at hu
    cases hty : goStringField fs "type".toList with
    | none => rw [hty] at hu; simp at hu
    | some ty =>
      rw [hty] at hu
      simp only [Option.bind_eq_bind, Option.some_bind] at hu
      have hpty : p.type = ty := by
        cases hus : lookupField fs "usage".toList with
        | none =>
          rw [hus] at hu
          injection hu with h1
          rw [← h1]
        | some v =>
          rw [hus] at hu
          cases v with
          | null =>
            injection hu with h1
            rw [← h1]
          | obj ufs =>
            dsimp only at hu
            cases hi : goIntField ufs "input_tokens".toList with
            | none => rw [hi] at hu; simp at hu
            | some i =>
              rw [hi] at hu
              simp only [Option.bind_eq_bind, Option.some_bind] at hu
              cases ho : goIntField ufs "output_tokens".toList with
              | none => rw [ho] at hu; simp at hu
              | some o =>
                rw [ho] at hu
                simp only [Option.bind_eq_bind, Option.some_bind] at hu
                cases htt : goIntField ufs "total_tokens".toList with
                | none => rw [htt] at hu; simp at hu
                | some t =>
                  rw [htt] at hu
                  simp only [Option.bind_eq_bind, Option.some_bind] at hu
                  injection hu with h1
                  rw [← h1]
          | bool b => simp at hu
          | num n => simp at hu
          | str s => simp at hu
          | arr es => simp at hu
      rw [hpty]
      exact goStringField_strs fs _ ty hty (hpty ▸ hne)

theorem isUsageUpdatePayload_spec (d : Bytes) (h : isUsageUpdatePayload d = true) :
    ∃ j p, parseJson d = some j ∧ unmarshalUsageEvent j = some p ∧
      p.type = usageUpdateType := by
  unfold isUsageUpdatePayload at h
  cases hp : parseJson d with
  | none => rw [hp] at h; simp at h
  | some j =>
    rw [hp] at h
    dsimp only at h
    cases hu : unmarshalUsageEvent j with
    | none => rw [hu] at h; simp at h
    | some p =>
      rw [hu] at h
      dsimp only at h
      exact ⟨j, p, rfl, hu, of_decide_eq_true h⟩

theorem trimSpace_within (l : Bytes) : trimSpace l <:+: l := by
  have hrev : ∀ m : Bytes, (List.dropWhile isWsChar m.reverse).reverse <+: m := by
    intro m
    have h1 := List.dropWhile_suffix (l := m.reverse) isWsChar
    have h2 := List.reverse_prefix.mpr h1
    rwa [List.reverse_reverse] at h2
  exact (hrev _).isInfix.trans (List.dropWhile_suffix _).isInfix

theorem splitNL_ne_nil (l : Bytes) : splitNL l ≠ [] := by
  cases l with
  | nil => simp [splitNL]
  | cons c rest =>
    unfold splitNL
    by_cases hc : c = '\n'
    · rw [if_pos hc]; simp
    · rw [if_neg hc]
      cases splitNL rest <;> simp

theorem splitNL_head_front : ∀ (l h : Bytes) (t : List Bytes),
    splitNL l = h :: t → h <+: l := by
  intro l
  induction l with
  | nil =>
    intro h t hs
    injection hs with h1 h2
    subst h1
    exact List.nil_prefix
  | cons c rest ih =>
    intro h t hs
    unfold splitNL at hs
    by_cases hc : c = '\n'
    · rw [if_pos hc] at hs
      injection hs with h1 h2
      rw [← h1]
      exact List.nil_prefix
    · rw [if_neg hc] at hs
      cases hsr : splitNL rest with
      | nil => exact absurd hsr (splitNL_ne_nil rest)
      | cons h0 t0 =>
        rw [hsr] at hs
        dsimp only at hs
        injection hs with h1 h2
        rw [← h1]
        exact List.cons_prefix_cons.mpr ⟨rfl, ih h0 t0 hsr⟩

theorem splitNL_mem_within : ∀ (l : Bytes), ∀ e ∈ splitNL l, e <:+: l := by
  intro l
  induction l with
  | nil =>
    intro e he
    rw [show splitNL [] = [[]] from rfl, List.mem_singleton] at he
    subst he
    exact List.nil_infix
  | cons c rest ih =>
    intro e he
    unfold splitNL at he
    by_cases hc : c = '\n'
    · rw [if_pos hc] at he
      rcases List.mem_cons.mp he with h1 | h1
      · subst h1; exact List.nil_infix
      · exact List.infix_cons (ih e h1)
    · rw [if_neg hc] at he
      cases hsr : splitNL rest with
      | nil => exact absurd hsr (splitNL_ne_nil rest)
      | cons h0 t0 =>
        rw [hsr] at he
        rcases List.mem_cons.mp he with h1 | h1
        · subst h1
          exact (List.cons_prefix_cons.mpr
            ⟨rfl, splitNL_head_front rest h0 t0 hsr⟩).isInfix
        · exact List.infix_cons (ih e (hsr ▸ List.mem_cons_of_mem h0 h1))

/-- A payload whose JSON decodes with type `usage_update` contains the
literal substring `usage_update` (no escape sequences survive the
embedded grammar), so `strings.Contains` finds it. -/
theorem usage_payload_within (d : Bytes) (h : isUsageUpdatePayload d = true) :
    usageUpdateType <:+: d := by
  obtain ⟨j, p, hp, hu, hty⟩ := isUsageUpdatePayload_spec d h
  have hne : p.type ≠ [] := by rw [hty]; decide
  have hmem : p.type ∈ jsonStrs j := usageType_strs j p hu hne
  have hinf := parseJson_strs_within d j hp p.type hmem
  rwa [hty] at hinf

/-- If some line of the scanned list is a `data: ` line with a
usage_update-typed payload, the scan of `extractUsageFromSSE` returns a
captured usage rather than `none`. -/
theorem extractDataLines_some_of_usage : ∀ (L : List Bytes) (line : Bytes),
    line ∈ L → dataMark.isPrefixOf line = true →
    isUsageUpdatePayload (line.drop 6) = true →
    extractDataLines L ≠ none := by
  intro L
  induction L with
  | nil => intro line hm; cases hm
  | cons a t ih =>
    intro line hm hpre hup
    unfold extractDataLines
    dsimp only
    by_cases hpa : dataMark.isPrefixOf a = true
    · rw [if_pos hpa]
      cases hj : parseJson (a.drop 6) with
      | none =>
        dsimp only
        rcases List.mem_cons.mp hm with h1 | h1
        · subst h1
          obtain ⟨j2, p2, hp, _, _⟩ := isUsageUpdatePayload_spec _ hup
          rw [hj] at hp
          cases hp
        · exact ih line h1 hpre hup
      | some j =>
        dsimp only
        cases hu : unmarshalUsageEvent j with
        | none =>
          dsimp only
          rcases List.mem_cons.mp hm with h1 | h1
          · subst h1
            obtain ⟨j2, p2, hp, hu2, _⟩ := isUsageUpdatePayload_spec _ hup
            rw [hj] at hp
            injection hp with h2
            subst h2
            rw [hu] at hu2
            cases hu2
          · exact ih line h1 hpre hup
        | some p =>
          dsimp only
          by_cases ht : p.type = usageUpdateType
          · rw [if_pos ht]
            simp
          · rw [if_neg ht]
            rcases List.mem_cons.mp hm with h1 | h1
            · subst h1
              obtain ⟨j2, p2, hp, hu2, hty2⟩ := isUsageUpdatePayload_spec _ hup
              rw [hj] at hp
              injection hp with h2
              subst h2
              rw [hu] at hu2
              injection hu2 with h3
              subst h3
              exact absurd hty2 ht
            · exact ih line h1 hpre hup
    · rw [if_neg hpa]
      rcases List.mem_cons.mp hm with h1 | h1
      · subst h1
        exact absurd hpre hpa
      · exact ih line h1 hpre hup

/-- Anything the wrapper forwards to the caller is not a
usage_update-typed frame: a frame with such a `data: ` line is always
captured by `extractUsageFromSSE` instead of being forwarded. -/
theorem relayEvent_fwd_not_usage (e b : Bytes) (h : (relayEvent e).1 = some b) :
    isUsageUpdateFrame b = false := by
  unfold relayEvent at h
  cases hps : processSSEEvent e with
  | none => rw [hps] at h; simp at h
  | some d =>
    rw [hps] at h
    dsimp only at h
    cases hx : extractUsageFromSSE d with
    | some u => rw [hx] at h; simp at h
    | none =>
      rw [hx] at h
      dsimp only at h
      injection h with h1
      subst h1
      cases hF : isUsageUpdateFrame d with
      | false => rfl
      | true =>
        unfold isUsageUpdateFrame at hF
        rw [List.any_eq_true] at hF
        obtain ⟨line, hmem, hpred⟩ := hF
        rw [Bool.and_eq_true] at hpred
        obtain ⟨hpre, hup⟩ := hpred
        have hinf : usageUpdateType <:+: d := by
          have h1 : usageUpdateType <:+: line.drop 6 := usage_payload_within _ hup
          have h2 : line.drop 6 <:+: line := (List.drop_suffix 6 line).isInfix
          have h3 : line <:+: trimSpace d := splitNL_mem_within _ line hmem
          exact ((h1.trans h2).trans h3).trans (trimSpace_within d)
        have hcs : containsSub d usageUpdateType = true := containsSub_of_within _ _ hinf
        unfold extractUsageFromSSE at hx
        rw [if_pos hcs] at hx
        exact absurd hx (extractDataLines_some_of_usage _ line hmem hpre hup)

/-- Composite per-event relay behavior for a terminal usage summary:
usage is captured, nothing is forwarded. -/
theorem relayEvent_terminal (X : Bytes) (su : StreamUsage)
    (hnl : ∀ c ∈ X, c ≠ '\n')
    (htrim : trimSpace (dataMark ++ X) = dataMark ++ X)
    (hsu : terminalUsageOf X = some su) :
    relayEvent (dataMark ++ X) =
      (none, some (mkUsage su.input_tokens su.output_tokens)) := by
  have hne : X ≠ [] := by
    intro hX
    rw [hX, show terminalUsageOf [] = none from rfl] at hsu
    cases hsu
  have hnd : X ≠ doneMark := by
    intro hX
    rw [hX, show terminalUsageOf doneMark = none from rfl] at hsu
    cases hsu
  unfold relayEvent
  rw [processSSEEvent_dataLine X hnl htrim hne hnd, hsu]
  dsimp only
  rw [extract_usageUpdateFrame su.input_tokens su.output_tokens]
  rfl

/-- Composite per-event relay behavior for any other complete event:
the payload is re-framed and forwarded, nothing is captured. -/
theorem relayEvent_other (X : Bytes)
    (hnl : ∀ c ∈ X, c ≠ '\n')
    (htrim : trimSpace (dataMark ++ X) = dataMark ++ X)
    (hne : X ≠ []) (hnd : X ≠ doneMark)
    (hterm : terminalUsageOf X = none)
    (hUU : isUsageUpdatePayload X = false) :
    relayEvent (dataMark ++ X) = (some (dataFrame X), none) := by
  unfold relayEvent
  rw [processSSEEvent_dataLine X hnl htrim hne hnd, hterm]
  dsimp only
  rw [extract_dataFrame_none X hnl htrim hUU]

/-- C1 (corrected): for every relayed complete streaming event, (i) a
terminal usage summary (`message_stop` with token counts) has its usage
captured internally and nothing forwarded; (ii) any other event is
forwarded as only its first forwardable `data: ` line's payload re-framed
into a fresh `data: <payload>` frame — `event:` header lines, skipped
data lines and everything after the first forwardable line are dropped,
so forwarding is not byte-for-byte; (iii) complete events with no
forwardable payload (only empty or `[DONE]` data lines, or no data line
at all) are dropped entirely; (iv) the caller never receives a
usage_update-typed event. -/
theorem c1_stream_event_relay :
    (∀ (X : Bytes) (su : StreamUsage), (∀ c ∈ X, c ≠ '\n') →
        trimSpace (dataMark ++ X) = dataMark ++ X →
        terminalUsageOf X = some su →
        relayEvent (dataMark ++ X) =
          (none, some (mkUsage su.input_tokens su.output_tokens))) ∧
    (∀ (pre : List Bytes) (X : Bytes) (post : List Bytes),
        (∀ l ∈ pre, dataMark.isPrefixOf l = true →
          l.drop 6 = [] ∨ l.drop 6 = doneMark) →
        X ≠ [] → X ≠ doneMark → terminalUsageOf X = none →
        processDataLines (pre ++ (dataMark ++ X) :: post) = some (dataFrame X)) ∧
    (∀ lines : List Bytes,
        (∀ l ∈ lines, dataMark.isPrefixOf l = true →
          l.drop 6 = [] ∨ l.drop 6 = doneMark) →
        processDataLines lines = none) ∧
    (∀ e b : Bytes, (relayEvent e).1 = some b → isUsageUpdateFrame b = false) :=
  ⟨relayEvent_terminal, processDataLines_forward, processDataLines_dropped,
   relayEvent_fwd_not_usage⟩

/-- Counterexample to the original C1 wording: a complete vendor event
with an `event:` header line is forwarded as only its data payload
re-framed — not byte-for-byte, the header line is gone — and a complete
`[DONE]` event is not forwarded at all. -/
theorem c1_stream_event_relay_counterexample :
    relayEvent headeredEvent = (some (dataFrame contentJson), none) ∧
    dataFrame contentJson ≠ headeredEvent ∧
    dataFrame contentJson ≠ headeredEvent ++ ['\n', '\n'] ∧
    relayEvent ("data: [DONE]".toList) = (none, none) := by
  decide

/-- Witness for the corrected C1 at concrete events: a terminal
`message_stop` frame is captured and withheld; a content payload behind
an `event:` header and ahead of a further line is forwarded as just that
payload re-framed; an event of only empty and `[DONE]` data lines plus a
header produces nothing; and the forwarded frame is not
usage_update-typed. -/
theorem c1_stream_event_relay_witness :
    relayEvent (dataMark ++ msgStopJson) = (none, some (mkUsage 12 34)) ∧
    processDataLines
      (["event: ping".toList] ++ (dataMark ++ contentJson) :: ["data: extra".toList]) =
      some (dataFrame contentJson) ∧
    processDataLines ["data: ".toList, "data: [DONE]".toList, "event: ping".toList] =
      none ∧
    isUsageUpdateFrame (dataFrame contentJson) = false :=
  ⟨c1_stream_event_relay.1 msgStopJson ⟨12, 34⟩ (by decide) (by decide) (by decide),
   c1_stream_event_relay.2.1 ["event: ping".toList] contentJson ["data: extra".toList]
     (by decide) (by decide) (by decide) (by decide),
   c1_stream_event_relay.2.2.1 ["data: ".toList, "data: [DONE]".toList, "event: ping".toList]
     (by decide),
   c1_stream_event_relay.2.2.2 (dataMark ++ contentJson) (dataFrame contentJson)
     (by decide)⟩

/-- C7: the normalized response transformation always produces a usage
block with `total_tokens = input_tokens + output_tokens`, and every usage
value captured from relaying a streaming terminal event satisfies the
same invariant. -/
theorem c7_usage_total_invariant :
    (∀ (resp : AnthropicResponse) (now : Int),
        (TransformResponse resp now).usage.total_tokens =
          (TransformResponse resp now).usage.input_tokens +
            (TransformResponse resp now).usage.output_tokens) ∧
    (∀ (X : Bytes) (su : StreamUsage) (u : ChatCompletionUsage),
        (∀ c ∈ X, c ≠ '\n') →
        trimSpace (dataMark ++ X) = dataMark ++ X →
        terminalUsageOf X = some su →
        (relayEvent (dataMark ++ X)).2 = some u →
        u.total_tokens = u.input_tokens + u.output_tokens) := by
  constructor
  · intro resp now
    unfold TransformResponse
    cases resp.content with
    | nil => rfl
    | cons first rest => rfl
  · intro X su u hnl htrim hsu h2
    rw [relayEvent_terminal X su hnl htrim hsu] at h2
    injection h2 with h3
    rw [← h3]
    rfl

/-- Witness for C7 at a concrete response and a concrete terminal
streaming event. -/
theorem c7_usage_total_invariant_witness :
    (TransformResponse ⟨[], [], [], [], [], [], ⟨7, 5⟩⟩ 0).usage.total_tokens =
      (TransformResponse ⟨[], [], [], [], [], [], ⟨7, 5⟩⟩ 0).usage.input_tokens +
        (TransformResponse ⟨[], [], [], [], [], [], ⟨7, 5⟩⟩ 0).usage.output_tokens ∧
    (mkUsage 12 34).total_tokens = (mkUsage 12 34).input_tokens +
      (mkUsage 12 34).output_tokens :=
  ⟨c7_usage_total_invariant.1 ⟨[], [], [], [], [], [], ⟨7, 5⟩⟩ 0,
   c7_usage_total_invariant.2 msgStopJson ⟨12, 34⟩ (mkUsage 12 34)
     (by decide) (by decide) (by decide) (by decide)⟩

theorem splitNN_ne_nil (l : Bytes) : splitNN l ≠ [] := by
  induction l using splitNN.induct with
  | case1 => simp [splitNN]
  | case2 c => simp [splitNN]
  | case3 c d rest hsep ih =>
    unfold splitNN
    rw [if_pos hsep]
    simp
  | case4 c d rest hns hnil ih => exact absurd hnil ih
  | case5 c d rest hns h0 t0 hsplit ih =>
    unfold splitNN
    rw [if_neg hns, hsplit]
    simp

theorem splitNN_singleton : ∀ (l x : Bytes), splitNN l = [x] → x = l := by
  intro l
  induction l using splitNN.induct with
  | case1 =>
    intro x h
    rw [show splitNN ([] : Bytes) = [[]] from rfl] at h
    injection h with h1 h2
    exact h1.symm
  | case2 c =>
    intro x h
    rw [show splitNN [c] = [[c]] from rfl] at h
    injection h with h1 h2
    exact h1.symm
  | case3 c d rest hsep ih =>
    intro x h
    unfold splitNN at h
    rw [if_pos hsep] at h
    injection h with h1 h2
    exact absurd h2 (splitNN_ne_nil rest)
  | case4 c d rest hns hnil ih => exact absurd hnil (splitNN_ne_nil _)
  | case5 c d rest hns h0 t0 hsplit ih =>
    intro x h
    unfold splitNN at h
    rw [if_neg hns, hsplit] at h
    dsimp only at h
    injection h with h1 h2
    subst h2
    have h0eq : h0 = d :: rest := ih h0 hsplit
    rw [← h1, h0eq]

theorem splitNN_head_shape (d : Char) (rest h : Bytes) (t : List Bytes)
    (hs : splitNN (d :: rest) = h :: t) : h = [] ∨ ∃ h2, h = d :: h2 := by
  cases rest with
  | nil =>
    rw [show splitNN [d] = [[d]] from rfl] at hs
    injection hs with h1 h2
    exact Or.inr ⟨[], h1.symm⟩
  | cons e rest2 =>
    unfold splitNN at hs
    by_cases hsep : d = '\n' ∧ e = '\n'
    · rw [if_pos hsep] at hs
      injection hs with h1 h2
      exact Or.inl h1.symm
    · rw [if_neg hsep] at hs
      cases hsp : splitNN (e :: rest2) with
      | nil => exact absurd hsp (splitNN_ne_nil _)
      | cons h0 t0 =>
        rw [hsp] at hs
        dsimp only at hs
        injection hs with h1 h2
        exact Or.inr ⟨h0, h1.symm⟩

theorem splitNN_nil_head_tail (d : Char) (rest : Bytes) (t : List Bytes)
    (hs : splitNN (d :: rest) = [] :: t) : t ≠ [] := by
  cases rest with
  | nil =>
    rw [show splitNN [d] = [[d]] from rfl] at hs
    injection hs with h1 h2
    exact absurd h1.symm (by simp)
  | cons e rest2 =>
    unfold splitNN at hs
    by_cases hsep : d = '\n' ∧ e = '\n'
    · rw [if_pos hsep] at hs
      injection hs with h1 h2
      rw [← h2]
      exact splitNN_ne_nil _
    · rw [if_neg hsep] at hs
      cases hsp : splitNN (e :: rest2) with
      | nil => exact absurd hsp (splitNN_ne_nil _)
      | cons h0 t0 =>
        rw [hsp] at hs
        dsimp only at hs
        injection hs with h1 h2
        exact absurd h1 (by simp)

theorem getLastD_of_ne_nil (l : List Bytes) (hl : l ≠ []) (a b : Bytes) :
    l.getLastD a = l.getLastD b := by
  cases l with
  | nil => exact absurd rfl hl
  | cons x xs => rw [List.getLastD_cons, List.getLastD_cons]

/-- Greedy two-newline splitting of an extended text re-examines only the
last (incomplete) segment: the complete leading segments are unchanged. -/
theorem splitNN_append : ∀ (s t : Bytes),
    splitNN (s ++ t) =
      (splitNN s).dropLast ++ splitNN ((splitNN s).getLastD [] ++ t) := by
  intro s
  induction s using splitNN.induct with
  | case1 => intro t; rfl
  | case2 c => intro t; rfl
  | case3 c d rest hsep ih =>
    intro t
    obtain ⟨hc, hd⟩ := hsep
    subst hc
    subst hd
    rw [show (('\n' :: '\n' :: rest) ++ t) = '\n' :: '\n' :: (rest ++ t) from rfl]
    rw [show splitNN ('\n' :: '\n' :: (rest ++ t)) = [] :: splitNN (rest ++ t) from by
      rw [splitNN.eq_3, if_pos ⟨rfl, rfl⟩]]
    rw [show splitNN ('\n' :: '\n' :: rest) = [] :: splitNN rest from by
      rw [splitNN.eq_3, if_pos ⟨rfl, rfl⟩]]
    rw [ih t]
    cases hS : splitNN rest with
    | nil => exact absurd hS (splitNN_ne_nil rest)
    | cons S0 St =>
      rw [List.dropLast_cons₂]
      rw [show (([] : Bytes) :: S0 :: St).getLastD [] = (S0 :: St).getLastD [] from
        List.getLastD_cons _ _ _]
      rfl
  | case4 c d rest hns hnil ih => exact absurd hnil (splitNN_ne_nil _)
  | case5 c d rest hns h0 t0 hsplit ih =>
    intro t
    have hcds : splitNN (c :: d :: rest) = (c :: h0) :: t0 := by
      unfold splitNN
      rw [if_neg hns, hsplit]
    have hlhs : splitNN ((c :: d :: rest) ++ t) =
        (match splitNN (d :: (rest ++ t)) with
         | [] => [[c]]
         | h :: t2 => (c :: h) :: t2) := by
      show splitNN (c :: d :: (rest ++ t)) = _
      rw [splitNN.eq_3, if_neg hns]
    rw [hlhs, hcds]
    rw [show d :: (rest ++ t) = (d :: rest) ++ t from (List.cons_append d rest t).symm]
    rw [ih t, hsplit]
    cases t0 with
    | nil =>
      have h0eq : h0 = d :: rest := splitNN_singleton _ h0 hsplit
      subst h0eq
      have hrhs : splitNN ((c :: d :: rest) ++ t) =
          (match splitNN (d :: (rest ++ t)) with
           | [] => [[c]]
           | h :: t2 => (c :: h) :: t2) := by
        show splitNN (c :: d :: (rest ++ t)) = _
        rw [splitNN.eq_3, if_neg hns]
      show (match splitNN ((d :: rest) ++ t) with
            | [] => [[c]]
            | h :: t2 => (c :: h) :: t2) = splitNN ((c :: d :: rest) ++ t)
      rw [hrhs]
      rw [show d :: (rest ++ t) = (d :: rest) ++ t from (List.cons_append d rest t).symm]
    | cons s1 t1 =>
      have hgl : ∀ (x : Bytes), List.getLastD (x :: s1 :: t1) ([] : Bytes) =
          List.getLastD t1 s1 := by
        intro x
        rw [List.getLastD_cons, List.getLastD_cons]
      rw [hgl h0, hgl (c :: h0)]
      rfl

theorem hasSuffixNN_iff (w : Bytes) :
    hasSuffixNN w = true ↔ w.reverse.take 2 = ['\n', '\n'] := by
  unfold hasSuffixNN
  rw [List.isSuffixOf_iff_suffix]
  rw [show (['\n', '\n'] : Bytes) <:+ w ↔
      (['\n', '\n'] : Bytes).reverse <+: w.reverse from List.reverse_prefix.symm]
  rw [List.prefix_iff_eq_take]
  constructor
  · intro h
    exact h.symm
  · intro h
    exact h.symm

theorem hasSuffixNN_append (u v : Bytes) (h : 2 ≤ v.length) :
    hasSuffixNN (u ++ v) = hasSuffixNN v := by
  rw [Bool.eq_iff_iff]
  have h1 := hasSuffixNN_iff (u ++ v)
  have h2 := hasSuffixNN_iff v
  rw [List.reverse_append] at h1
  rw [List.take_append_of_le_length (by simpa using h)] at h1
  exact h1.trans h2.symm

theorem getLastD_mem (S : List Bytes) (hS : S ≠ []) : S.getLastD [] ∈ S := by
  rw [List.getLastD_eq_getLast?, List.getLast?_eq_getLast S hS]
  exact List.getLast_mem hS

/-- The last segment of the greedy split is a suffix of the text. -/
theorem splitNN_getLast_suffix : ∀ l : Bytes, (splitNN l).getLastD [] <:+ l := by
  intro l
  induction l using splitNN.induct with
  | case1 => exact List.nil_suffix
  | case2 c => exact List.suffix_refl [c]
  | case3 c d rest hsep ih =>
    obtain ⟨hc, hd⟩ := hsep
    subst hc
    subst hd
    rw [splitNN.eq_3, if_pos ⟨rfl, rfl⟩, List.getLastD_cons]
    exact ih.trans ((List.suffix_cons _ _).trans (List.suffix_cons _ _))
  | case4 c d rest hns hnil ih => exact absurd hnil (splitNN_ne_nil _)
  | case5 c d rest hns h0 t0 hsplit ih =>
    rw [splitNN.eq_3, if_neg hns, hsplit]
    dsimp only
    cases t0 with
    | nil =>
      have h0eq : h0 = d :: rest := splitNN_singleton _ h0 hsplit
      rw [show ([c :: h0] : List Bytes).getLastD [] = c :: h0 from rfl, h0eq]
    | cons s1 t1 =>
      rw [hsplit, List.getLastD_cons, List.getLastD_cons] at ih
      rw [List.getLastD_cons, List.getLastD_cons]
      exact ih.trans (List.suffix_cons c (d :: rest))

/-- No segment of the greedy split contains the two-newline separator. -/
theorem mem_splitNN_noNN : ∀ (l : Bytes), ∀ e ∈ splitNN l,
    ¬ ((['\n', '\n'] : Bytes) <:+: e) := by
  intro l
  induction l using splitNN.induct with
  | case1 =>
    intro e he hinf
    rw [show splitNN ([] : Bytes) = [[]] from rfl, List.mem_singleton] at he
    subst he
    simpa using hinf.length_le
  | case2 c =>
    intro e he hinf
    rw [show splitNN [c] = [[c]] from rfl, List.mem_singleton] at he
    subst he
    simpa using hinf.length_le
  | case3 c d rest hsep ih =>
    intro e he hinf
    rw [splitNN.eq_3, if_pos hsep] at he
    rcases List.mem_cons.mp he with h1 | h1
    · subst h1
      simpa using hinf.length_le
    · exact ih e h1 hinf
  | case4 c d rest hns hnil ih => exact absurd hnil (splitNN_ne_nil _)
  | case5 c d rest hns h0 t0 hsplit ih =>
    intro e he hinf
    rw [splitNN.eq_3, if_neg hns, hsplit] at he
    dsimp only at he
    rcases List.mem_cons.mp he with h1 | h1
    · subst h1
      rcases List.infix_cons_iff.mp hinf with h2 | h2
      · rw [List.cons_prefix_cons] at h2
        obtain ⟨hcn, h3⟩ := h2
        rcases splitNN_head_shape d rest h0 t0 hsplit with h4 | ⟨h2b, h4⟩
        · subst h4
          simpa using h3.length_le
        · subst h4
          rw [List.cons_prefix_cons] at h3
          exact hns ⟨hcn.symm, h3.1.symm⟩
      · exact ih h0 (hsplit ▸ List.mem_cons_self _ _) h2
    · exact ih e (hsplit ▸ List.mem_cons_of_mem h0 h1) hinf

theorem hasSuffixNN_eq_false_of_noNN (L : Bytes)
    (h : ¬ ((['\n', '\n'] : Bytes) <:+: L)) : hasSuffixNN L = false := by
  cases hL : hasSuffixNN L with
  | false => rfl
  | true =>
    have hsuf : (['\n', '\n'] : Bytes) <:+ L := List.isSuffixOf_iff_suffix.mp hL
    exact absurd hsuf.isInfix h

/-- When the buffered text ends in the separator, its last greedy segment
is empty or a single newline. -/
theorem splitNN_last_of_complete (T : Bytes) (h : hasSuffixNN T = true) :
    (splitNN T).getLastD [] = [] ∨ (splitNN T).getLastD [] = ['\n'] := by
  have hLsuf : (splitNN T).getLastD [] <:+ T := splitNN_getLast_suffix T
  have hNN : (['\n', '\n'] : Bytes) <:+ T := List.isSuffixOf_iff_suffix.mp h
  have hno : ¬ ((['\n', '\n'] : Bytes) <:+: (splitNN T).getLastD []) :=
    mem_splitNN_noNN T _ (getLastD_mem _ (splitNN_ne_nil T))
  rcases List.suffix_or_suffix_of_suffix hLsuf hNN with h1 | h1
  · obtain ⟨p, hp⟩ := h1
    cases hL : (splitNN T).getLastD [] with
    | nil => exact Or.inl rfl
    | cons x xs =>
      rw [hL] at hp
      cases xs with
      | nil =>
        cases p with
        | nil => simp at hp
        | cons a as =>
          cases as with
          | nil =>
            injection hp with hp1 hp2
            injection hp2 with hp3 hp4
            rw [hp3]
            exact Or.inr rfl
          | cons b bs => simp at hp
      | cons y ys =>
        exfalso
        have hl := congrArg List.length hp
        rw [List.length_append] at hl
        simp only [List.length_cons, List.length_nil] at hl
        have hp0 : p = [] := List.length_eq_zero.mp (by omega)
        have hys : ys = [] := List.length_eq_zero.mp (by omega)
        subst hp0
        subst hys
        simp only [List.nil_append, List.cons.injEq, and_true] at hp
        obtain ⟨hx, hy⟩ := hp
        subst hx
        subst hy
        rw [hL] at hno
        exact hno (List.infix_refl _)
  · exact absurd h1.isInfix hno

theorem splitNN_last_ne_nil_of_incomplete : ∀ T : Bytes,
    hasSuffixNN T = false → T ≠ [] → (splitNN T).getLastD [] ≠ [] := by
  intro T
  induction T using splitNN.induct with
  | case1 => intro h1 h2; exact absurd rfl h2
  | case2 c => intro h1 h2; simp [splitNN]
  | case3 c d rest hsep ih =>
    intro h1 h2
    obtain ⟨hc, hd⟩ := hsep
    subst hc
    subst hd
    rw [splitNN.eq_3, if_pos ⟨rfl, rfl⟩, List.getLastD_cons]
    cases rest with
    | nil => exact absurd h1 (by decide)
    | cons y rest2 =>
      cases rest2 with
      | nil => simp [splitNN]
      | cons z rest3 =>
        have hflag : hasSuffixNN ('\n' :: '\n' :: (y :: z :: rest3)) =
            hasSuffixNN (y :: z :: rest3) :=
          hasSuffixNN_append ['\n', '\n'] (y :: z :: rest3) (by simp)
        rw [hflag] at h1
        exact ih h1 (by simp)
  | case4 c d rest hns hnil ih => exact absurd hnil (splitNN_ne_nil _)
  | case5 c d rest hns h0 t0 hsplit ih =>
    intro h1 h2
    rw [splitNN.eq_3, if_neg hns, hsplit]
    dsimp only
    cases t0 with
    | nil => simp
    | cons s1 t1 =>
      rw [List.getLastD_cons, List.getLastD_cons]
      cases rest with
      | nil =>
        rw [show splitNN [d] = [[d]] from rfl] at hsplit
        injection hsplit with ha hb
        simp at hb
      | cons y rest2 =>
        have hflag : hasSuffixNN (c :: d :: y :: rest2) = hasSuffixNN (d :: y :: rest2) :=
          hasSuffixNN_append [c] (d :: y :: rest2) (by simp)
        rw [hflag] at h1
        have := ih h1 (by simp)
        rw [hsplit, List.getLastD_cons, List.getLastD_cons] at this
        exact this

theorem relayEventsLoop_complete : ∀ es : List Bytes,
    relayEventsLoop es true = (es.filterMap processSSEEvent, []) := by
  intro es
  induction es with
  | nil => rfl
  | cons e es2 ih =>
    cases es2 with
    | nil =>
      show ((processSSEEvent e).toList, ([] : Bytes)) = _
      cases hpe : processSSEEvent e <;> simp [List.filterMap_cons, hpe]
    | cons e2 es3 =>
      show ((processSSEEvent e).toList ++ (relayEventsLoop (e2 :: es3) true).1,
            (relayEventsLoop (e2 :: es3) true).2) = _
      rw [ih]
      cases hpe : processSSEEvent e <;> simp [List.filterMap_cons, hpe]

theorem relayEventsLoop_cons_ne (a : Bytes) (L : List Bytes) (cpl : Bool) (hL : L ≠ []) :
    relayEventsLoop (a :: L) cpl =
      ((processSSEEvent a).toList ++ (relayEventsLoop L cpl).1,
       (relayEventsLoop L cpl).2) := by
  cases L with
  | nil => exact absurd rfl hL
  | cons x xs => rfl

theorem relayEventsLoop_append : ∀ (A B : List Bytes) (cpl : Bool), B ≠ [] →
    relayEventsLoop (A ++ B) cpl =
      (A.filterMap processSSEEvent ++ (relayEventsLoop B cpl).1,
       (relayEventsLoop B cpl).2) := by
  intro A
  induction A with
  | nil => intro B cpl hB; simp
  | cons a A2 ih =>
    intro B cpl hB
    have hne : A2 ++ B ≠ [] := fun h => hB (List.append_eq_nil.mp h).2
    rw [List.cons_append, relayEventsLoop_cons_ne a (A2 ++ B) cpl hne, ih B cpl hB]
    cases hpa : processSSEEvent a <;>
      simp [List.filterMap_cons, hpa, List.append_assoc]

/-- One read-loop iteration emits the complete segments of the combined
text and holds back its remainder. -/
theorem relayReadChunk_eq (r c : Bytes) :
    relayReadChunk r c = (emitOf (r ++ c), remOf (r ++ c)) := by
  unfold relayReadChunk emitOf remOf completedSegs parseSSEEvents
  dsimp only
  cases hflag : hasSuffixNN (r ++ c) with
  | true =>
    rw [relayEventsLoop_complete]
    simp
  | false =>
    have hne := splitNN_ne_nil (r ++ c)
    have hsplit : splitNN (r ++ c) =
        (splitNN (r ++ c)).dropLast ++ [(splitNN (r ++ c)).getLast hne] :=
      (List.dropLast_append_getLast hne).symm
    conv_lhs => rw [hsplit]
    rw [relayEventsLoop_append _ _ _ (by simp)]
    rw [show relayEventsLoop [(splitNN (r ++ c)).getLast hne] false =
        ([], (splitNN (r ++ c)).getLast hne) from rfl]
    rw [List.getLastD_eq_getLast?, List.getLast?_eq_getLast _ hne]
    simp

theorem nlRel_symm {a b : Bytes} (h : nlRel a b) : nlRel b a := by
  rcases h with h | h | h
  · exact Or.inl h.symm
  · exact Or.inr (Or.inr h)
  · exact Or.inr (Or.inl h)

theorem processSSEEvent_cons_nl (h : Bytes) :
    processSSEEvent ('\n' :: h) = processSSEEvent h := by
  unfold processSSEEvent
  rw [show trimSpace ('\n' :: h) = trimSpace h from by
    unfold trimSpace
    rw [List.dropWhile_cons, if_pos (by decide : isWsChar '\n' = true)]]

theorem filterMap_pse_cons_nil (S : List Bytes) :
    List.filterMap processSSEEvent ([] :: S) = S.filterMap processSSEEvent := by
  rw [List.filterMap_cons, show processSSEEvent [] = none from rfl]

theorem hasSuffixNN_singleton (x : Char) : hasSuffixNN [x] = false := by
  cases hf : hasSuffixNN [x] with
  | false => rfl
  | true =>
    exfalso
    have h2 := List.isSuffixOf_iff_suffix.mp hf
    simpa using h2.length_le

theorem hasSuffixNN_pair (a b : Char) :
    hasSuffixNN [a, b] = (decide (a = '\n') && decide (b = '\n')) := by
  rw [Bool.eq_iff_iff, hasSuffixNN_iff]
  rw [show ([a, b] : Bytes).reverse.take 2 = [b, a] from rfl]
  constructor
  · intro h
    injection h with h1 h2
    injection h2 with h3 h4
    subst h1
    subst h3
    decide
  · intro h
    rw [Bool.and_eq_true, decide_eq_true_eq, decide_eq_true_eq] at h
    rw [h.1, h.2]

/-- Shift lemma: prepending a single newline to the buffered text (a
separator fragment already consumed on the other side) changes neither
the emitted events nor, up to `nlRel`, the held remainder. -/
theorem star_shift : ∀ (n : Nat) (J : Bytes), J.length ≤ n →
    emitOf ('\n' :: J) = emitOf J ∧ nlRel (remOf ('\n' :: J)) (remOf J) := by
  intro n
  induction n with
  | zero =>
    intro J hJ
    have hJ0 : J = [] := List.length_eq_zero.mp (Nat.le_zero.mp hJ)
    subst hJ0
    exact ⟨by decide, Or.inr (Or.inl (by decide))⟩
  | succ n ihn =>
    intro J hJ
    cases J with
    | nil => exact ⟨by decide, Or.inr (Or.inl (by decide))⟩
    | cons x J1 =>
      cases J1 with
      | nil =>
        by_cases hx : x = '\n'
        · subst hx
          exact ⟨by decide, Or.inr (Or.inr (by decide))⟩
        · have hs1 : splitNN ['\n', x] = [['\n', x]] := by
            rw [splitNN.eq_3, if_neg (fun hc => hx hc.2)]
            rfl
          have hf1 : hasSuffixNN ['\n', x] = false := by
            rw [hasSuffixNN_pair]
            simp [hx]
          have hf2 : hasSuffixNN [x] = false := hasSuffixNN_singleton x
          constructor
          · unfold emitOf completedSegs
            rw [hs1, hf1, hf2]
            rfl
          · right
            left
            unfold remOf
            rw [hs1, hf1, hf2]
            rfl
      | cons y J2 =>
        by_cases hx : x = '\n'
        · subst hx
          -- J = '\n' :: (y :: J2); the leading pair forms a separator
          have htail : (y :: J2).length ≤ n := by
            simp at hJ ⊢
            omega
          obtain ⟨ihE, ihR⟩ := ihn (y :: J2) htail
          have hs1 : splitNN ('\n' :: '\n' :: y :: J2) = [] :: splitNN (y :: J2) := by
            rw [splitNN.eq_3, if_pos ⟨rfl, rfl⟩]
          cases J2 with
          | nil =>
            by_cases hy : y = '\n'
            · subst hy
              exact ⟨by decide, Or.inl (by decide)⟩
            · have hsy : splitNN [y] = [[y]] := rfl
              have hfy : hasSuffixNN ['\n', '\n', y] = false := by
                have : hasSuffixNN (['\n'] ++ ['\n', y]) = hasSuffixNN ['\n', y] :=
                  hasSuffixNN_append ['\n'] ['\n', y] (by simp)
                rw [show (['\n'] ++ ['\n', y] : Bytes) = ['\n', '\n', y] from rfl] at this
                rw [this, hasSuffixNN_pair]
                simp [hy]
              have hfy2 : hasSuffixNN ['\n', y] = false := by
                rw [hasSuffixNN_pair]
                simp [hy]
              have hsy2 : splitNN ['\n', y] = [['\n', y]] := by
                rw [splitNN.eq_3, if_neg (fun hc => hy hc.2)]
                rfl
              constructor
              · unfold emitOf completedSegs
                rw [hs1, hfy, hfy2, hsy2]
                rfl
              · right
                right
                unfold remOf
                rw [hs1, hfy, hfy2, hsy2]
                rfl
          | cons z J3 =>
            -- tail has length ≥ 2: completeness flags line up
            have hflag1 : hasSuffixNN ('\n' :: '\n' :: y :: z :: J3) =
                hasSuffixNN (y :: z :: J3) :=
              hasSuffixNN_append ['\n', '\n'] (y :: z :: J3) (by simp)
            have hflag2 : hasSuffixNN ('\n' :: y :: z :: J3) =
                hasSuffixNN (y :: z :: J3) :=
              hasSuffixNN_append ['\n'] (y :: z :: J3) (by simp)
            have hsne := splitNN_ne_nil (y :: z :: J3)
            constructor
            · rw [ihE]
              unfold emitOf completedSegs
              rw [hs1, hflag1]
              cases hb : hasSuffixNN (y :: z :: J3) with
              | true =>
                rw [if_pos rfl, if_pos rfl]
                exact filterMap_pse_cons_nil _
              | false =>
                rw [if_neg (by simp), if_neg (by simp)]
                cases hsp : splitNN (y :: z :: J3) with
                | nil => exact absurd hsp hsne
                | cons S0 St =>
                  rw [List.dropLast_cons₂]
                  exact filterMap_pse_cons_nil _
            · unfold remOf
              rw [hs1, hflag1]
              cases hb : hasSuffixNN (y :: z :: J3) with
              | true =>
                rw [if_pos rfl, hflag2, hb, if_pos rfl]
                exact Or.inl rfl
              | false =>
                rw [if_neg (by simp), List.getLastD_cons, hflag2, hb, if_neg (by simp)]
                unfold remOf at ihR
                rw [hflag2, hb, if_neg (by simp), if_neg (by simp)] at ihR
                exact nlRel_symm ihR
        · -- x ≠ '\n': the first segment gains a leading newline
          have hflag : hasSuffixNN ('\n' :: x :: y :: J2) = hasSuffixNN (x :: y :: J2) :=
            hasSuffixNN_append ['\n'] (x :: y :: J2) (by simp)
          have hsne := splitNN_ne_nil (x :: y :: J2)
          cases hsp : splitNN (x :: y :: J2) with
          | nil => exact absurd hsp hsne
          | cons h t =>
            have hs1 : splitNN ('\n' :: x :: y :: J2) = ('\n' :: h) :: t := by
              rw [splitNN.eq_3, if_neg (fun hc => hx hc.2), hsp]
            constructor
            · unfold emitOf completedSegs
              rw [hs1, hsp, hflag]
              cases hb : hasSuffixNN (x :: y :: J2) with
              | true =>
                rw [if_pos rfl, if_pos rfl]
                rw [List.filterMap_cons, List.filterMap_cons, processSSEEvent_cons_nl]
              | false =>
                rw [if_neg (by simp), if_neg (by simp)]
                cases t with
                | nil => rfl
                | cons t0 t1 =>
                  rw [List.dropLast_cons₂, List.dropLast_cons₂]
                  rw [List.filterMap_cons, List.filterMap_cons, processSSEEvent_cons_nl]
            · unfold remOf
              rw [hs1, hsp, hflag]
              cases hb : hasSuffixNN (x :: y :: J2) with
              | true =>
                rw [if_pos rfl]
                exact Or.inl rfl
              | false =>
                rw [if_neg (by simp), if_neg (by simp)]
                cases t with
                | nil => exact Or.inr (Or.inl rfl)
                | cons t0 t1 =>
                  have hgl2 : ∀ w : Bytes, ((w :: t0 :: t1 : List Bytes)).getLastD [] =
                      t1.getLastD t0 := by
                    intro w
                    rw [List.getLastD_cons, List.getLastD_cons]
                  rw [hgl2, hgl2]
                  exact Or.inl rfl

theorem star (J : Bytes) :
    emitOf ('\n' :: J) = emitOf J ∧ nlRel (remOf ('\n' :: J)) (remOf J) :=
  star_shift J.length J le_rfl

theorem getLastD_append (A B : List Bytes) (hB : B ≠ []) :
    (A ++ B).getLastD [] = B.getLastD [] := by
  suffices H : ∀ d, (A ++ B).getLastD d = B.getLastD [] from H []
  induction A with
  | nil => intro d; exact getLastD_of_ne_nil B hB d []
  | cons a A2 ih =>
    intro d
    rw [List.cons_append, List.getLastD_cons]
    exact ih a

theorem emitOf_incomplete (T : Bytes) (h : hasSuffixNN T = false) :
    emitOf T = (splitNN T).dropLast.filterMap processSSEEvent := by
  unfold emitOf completedSegs
  rw [h, if_neg (by simp)]

theorem emitOf_complete (T : Bytes) (h : hasSuffixNN T = true) :
    emitOf T = (splitNN T).filterMap processSSEEvent := by
  unfold emitOf completedSegs
  rw [h, if_pos rfl]

theorem remOf_incomplete (T : Bytes) (h : hasSuffixNN T = false) :
    remOf T = (splitNN T).getLastD [] := by
  unfold remOf
  rw [h, if_neg (by simp)]

theorem remOf_complete (T : Bytes) (h : hasSuffixNN T = true) : remOf T = [] := by
  unfold remOf
  rw [h, if_pos rfl]

/-- With the completeness flags aligned, appending a chunk decomposes:
the previously complete segments stay, and the held-back last segment is
re-split together with the chunk. -/
theorem truth_decompose (T c inner : Bytes)
    (hsplit : splitNN (T ++ c) = (splitNN T).dropLast ++ splitNN inner)
    (hflag : hasSuffixNN (T ++ c) = hasSuffixNN inner) :
    emitOf (T ++ c) =
      (splitNN T).dropLast.filterMap processSSEEvent ++ emitOf inner ∧
    remOf (T ++ c) = remOf inner := by
  cases hb : hasSuffixNN inner with
  | true =>
    have hTc : hasSuffixNN (T ++ c) = true := by rw [hflag, hb]
    refine ⟨?_, ?_⟩
    · rw [emitOf_complete _ hTc, hsplit, List.filterMap_append, emitOf_complete _ hb]
    · rw [remOf_complete _ hTc, remOf_complete _ hb]
  | false =>
    have hTc : hasSuffixNN (T ++ c) = false := by rw [hflag, hb]
    have hne := splitNN_ne_nil inner
    refine ⟨?_, ?_⟩
    · rw [emitOf_incomplete _ hTc, hsplit, List.dropLast_append_of_ne_nil _ hne,
        List.filterMap_append, emitOf_incomplete _ hb]
    · rw [remOf_incomplete _ hTc, hsplit, getLastD_append _ _ hne,
        remOf_incomplete _ hb]

/-- When the buffered text is incomplete, extending it keeps the
completeness flag of the re-split last segment plus chunk. -/
theorem flag_TC_eq (T c : Bytes) (hT : hasSuffixNN T = false) :
    hasSuffixNN (T ++ c) = hasSuffixNN ((splitNN T).getLastD [] ++ c) := by
  obtain ⟨u, hu⟩ := splitNN_getLast_suffix T
  by_cases hlen : 2 ≤ ((splitNN T).getLastD [] ++ c).length
  · calc hasSuffixNN (T ++ c)
        = hasSuffixNN (u ++ ((splitNN T).getLastD [] ++ c)) := by
          rw [← List.append_assoc, hu]
      _ = hasSuffixNN ((splitNN T).getLastD [] ++ c) := hasSuffixNN_append u _ hlen
  · by_cases hTnil : T = []
    · subst hTnil
      rw [show (splitNN ([] : Bytes)).getLastD [] = [] from rfl, List.nil_append]
    · have hLne : (splitNN T).getLastD [] ≠ [] :=
        splitNN_last_ne_nil_of_incomplete T hT hTnil
      cases hc : c with
      | cons c0 cs =>
        exfalso
        apply hlen
        cases hL : (splitNN T).getLastD [] with
        | nil => exact absurd hL hLne
        | cons w ws =>
          rw [hc, List.length_append]
          simp only [List.length_cons]
          omega
      | nil =>
        rw [List.append_nil, List.append_nil, hT]
        cases hL : (splitNN T).getLastD [] with
        | nil => exact absurd hL hLne
        | cons w ws =>
          cases ws with
          | nil => rw [hasSuffixNN_singleton]
          | cons w2 ws2 =>
            exfalso
            apply hlen
            rw [hL, hc, List.append_nil]
            simp only [List.length_cons]
            omega

theorem last_of_hasSuffixNN (w : Bytes) (h : hasSuffixNN w = true) :
    w.getLast? = some '\n' := by
  obtain ⟨p, hp⟩ := List.isSuffixOf_iff_suffix.mp h
  rw [← hp, List.getLast?_append]
  rfl

theorem flag_snoc_ne (w : Bytes) (c0 : Char) (hc0 : c0 ≠ '\n') :
    hasSuffixNN (w ++ [c0]) = false := by
  cases hf : hasSuffixNN (w ++ [c0]) with
  | false => rfl
  | true =>
    exfalso
    have h1 := last_of_hasSuffixNN _ hf
    rw [List.getLast?_concat] at h1
    injection h1 with h2
    exact hc0 h2

theorem flag_snoc_nl (w : Bytes) (hw : hasSuffixNN w = true) :
    hasSuffixNN (w ++ ['\n']) = true := by
  obtain ⟨p, hp⟩ := List.isSuffixOf_iff_suffix.mp hw
  unfold hasSuffixNN
  rw [List.isSuffixOf_iff_suffix]
  refine ⟨p ++ ['\n'], ?_⟩
  rw [← hp]
  simp

/-- One chunk step preserves the relation between the incremental read
loop (remainder `r`) and the contiguous buffered text `T`, and the
incremental step emits exactly the events that the contiguous text gains
from the chunk. -/
theorem relay_step (T r c : Bytes) (hrel : StateRel T r) :
    emitOf (T ++ c) = emitOf T ++ emitOf (r ++ c) ∧
    StateRel (T ++ c) (remOf (r ++ c)) := by
  rcases hrel with ⟨hT, hr⟩ | ⟨hT, hr⟩
  · -- T is complete: the remainder was reset (possibly to a stray newline)
    have hL2 := splitNN_last_of_complete T hT
    have hneT := splitNN_ne_nil T
    have hsplitT : splitNN T =
        (splitNN T).dropLast ++ [(splitNN T).getLastD []] := by
      rw [List.getLastD_eq_getLast?, List.getLast?_eq_getLast _ hneT]
      exact (List.dropLast_append_getLast hneT).symm
    have hpseL : processSSEEvent ((splitNN T).getLastD []) = none := by
      rcases hL2 with h | h <;> rw [h] <;> rfl
    have hemitT : emitOf T = (splitNN T).dropLast.filterMap processSSEEvent := by
      rw [emitOf_complete T hT]
      conv_lhs => rw [hsplitT]
      rw [List.filterMap_append, List.filterMap_cons, hpseL]
      simp
    have hsplit := splitNN_append T c
    cases c with
    | nil =>
      rw [List.append_nil]
      have hz : emitOf (r ++ []) = [] := by
        rcases hr with h | h
        · rw [List.append_nil, h]; decide
        · rw [List.append_nil, h]; decide
      constructor
      · rw [hz, List.append_nil]
      · left
        refine ⟨hT, ?_⟩
        rcases hr with h | h
        · rw [List.append_nil, h]
          left
          decide
        · rw [List.append_nil, h]
          right
          decide
    | cons c0 cs =>
      rcases hL2 with hLnil | hLnl
      · -- last segment of T is empty
        rw [hLnil, List.nil_append] at hsplit
        cases cs with
        | nil =>
          by_cases hc0 : c0 = '\n'
          · subst hc0
            have hfT : hasSuffixNN (T ++ ['\n']) = true := flag_snoc_nl T hT
            have hemitTC : emitOf (T ++ ['\n']) = emitOf T := by
              rw [emitOf_complete _ hfT, hsplit, List.filterMap_append, hemitT]
              rw [show List.filterMap processSSEEvent (splitNN ['\n']) = [] from rfl]
              rw [List.append_nil]
            have hz : emitOf (r ++ ['\n']) = [] := by
              rcases hr with h | h
              · rw [h]; decide
              · rw [h]; decide
            constructor
            · rw [hemitTC, hz, List.append_nil]
            · left
              refine ⟨hfT, ?_⟩
              rcases hr with h | h
              · rw [h]
                right
                decide
              · rw [h]
                left
                decide
          · have hfT : hasSuffixNN (T ++ [c0]) = false := flag_snoc_ne T c0 hc0
            have hs0 : splitNN [c0] = [[c0]] := rfl
            have hemitTC : emitOf (T ++ [c0]) = emitOf T := by
              rw [emitOf_incomplete _ hfT, hsplit, hs0, hemitT]
              rw [List.dropLast_append_of_ne_nil _ (by simp)]
              rw [show ([[c0]] : List Bytes).dropLast = [] from rfl, List.append_nil]
            have hremTC : remOf (T ++ [c0]) = [c0] := by
              rw [remOf_incomplete _ hfT, hsplit, hs0,
                getLastD_append _ _ (by simp)]
              rfl
            constructor
            · rcases hr with h | h
              · rw [hemitTC, h, List.nil_append,
                  show emitOf [c0] = [] from by
                    rw [emitOf_incomplete _ (hasSuffixNN_singleton c0), hs0]
                    rfl,
                  List.append_nil]
              · rw [hemitTC, h]
                obtain ⟨hstarE, _⟩ := star [c0]
                rw [show ('\n' :: [c0] : Bytes) = ['\n'] ++ [c0] from rfl] at hstarE
                rw [hstarE,
                  show emitOf [c0] = [] from by
                    rw [emitOf_incomplete _ (hasSuffixNN_singleton c0), hs0]
                    rfl,
                  List.append_nil]
            · right
              refine ⟨hfT, ?_⟩
              rw [hremTC]
              rcases hr with h | h
              · rw [h, List.nil_append]
                left
                rw [remOf_incomplete _ (hasSuffixNN_singleton c0), hs0]
                rfl
              · rw [h]
                right
                left
                rw [show (['\n'] : Bytes) ++ [c0] = ['\n', c0] from rfl]
                have hsnc : splitNN ['\n', c0] = [['\n', c0]] := by
                  rw [splitNN.eq_3, if_neg (fun hx => hc0 hx.2)]
                  rfl
                have hfnc : hasSuffixNN ['\n', c0] = false := by
                  rw [hasSuffixNN_pair]
                  simp [hc0]
                rw [remOf_incomplete _ hfnc, hsnc]
                rfl
        | cons cs0 cs1 =>
          have hflagc : hasSuffixNN (T ++ (c0 :: cs0 :: cs1)) =
              hasSuffixNN (c0 :: cs0 :: cs1) :=
            hasSuffixNN_append T _ (by simp)
          obtain ⟨hemitTC, hremTC⟩ := truth_decompose T _ _ hsplit hflagc
          rcases hr with h | h
          · subst h
            constructor
            · rw [hemitTC, hemitT, List.nil_append]
            · cases hb : hasSuffixNN (T ++ (c0 :: cs0 :: cs1)) with
              | true =>
                left
                refine ⟨hb, ?_⟩
                rw [List.nil_append, ← hremTC, remOf_complete _ hb]
                left
                rfl
              | false =>
                right
                refine ⟨hb, ?_⟩
                rw [List.nil_append, ← hremTC]
                left
                rfl
          · subst h
            obtain ⟨hstarE, hstarR⟩ := star (c0 :: cs0 :: cs1)
            constructor
            · rw [hemitTC, hemitT,
                show (['\n'] : Bytes) ++ (c0 :: cs0 :: cs1) = '\n' :: (c0 :: cs0 :: cs1)
                  from rfl, hstarE]
            · rw [show (['\n'] : Bytes) ++ (c0 :: cs0 :: cs1) = '\n' :: (c0 :: cs0 :: cs1)
                from rfl]
              cases hb : hasSuffixNN (T ++ (c0 :: cs0 :: cs1)) with
              | true =>
                left
                refine ⟨hb, ?_⟩
                have hz : remOf (c0 :: cs0 :: cs1) = [] := by
                  rw [← hremTC, remOf_complete _ hb]
                rw [hz] at hstarR
                rcases hstarR with h2 | h2 | h2
                · exact Or.inl h2
                · exact Or.inr h2
                · exact absurd h2 (by simp)
              | false =>
                right
                refine ⟨hb, ?_⟩
                rw [hremTC]
                exact hstarR
      · -- last segment of T is a single newline
        obtain ⟨u, hu⟩ := splitNN_getLast_suffix T
        rw [hLnl] at hsplit hu
        rw [show (['\n'] : Bytes) ++ (c0 :: cs) = '\n' :: c0 :: cs from rfl] at hsplit
        have hflagc : hasSuffixNN (T ++ (c0 :: cs)) =
            hasSuffixNN ('\n' :: c0 :: cs) := by
          calc hasSuffixNN (T ++ (c0 :: cs))
              = hasSuffixNN (u ++ ('\n' :: c0 :: cs)) := by
                rw [← hu, List.append_assoc]
                rfl
            _ = hasSuffixNN ('\n' :: c0 :: cs) :=
                hasSuffixNN_append u _ (by simp)
        obtain ⟨hemitTC, hremTC⟩ := truth_decompose T _ _ hsplit hflagc
        rcases hr with h | h
        · subst h
          obtain ⟨hstarE, hstarR⟩ := star (c0 :: cs)
          constructor
          · rw [hemitTC, hemitT, hstarE, List.nil_append]
          · rw [List.nil_append]
            cases hb : hasSuffixNN (T ++ (c0 :: cs)) with
            | true =>
              left
              refine ⟨hb, ?_⟩
              have hz : remOf ('\n' :: c0 :: cs) = [] := by
                rw [← hremTC, remOf_complete _ hb]
              rw [hz] at hstarR
              rcases hstarR with h2 | h2 | h2
              · exact Or.inl h2.symm
              · exact absurd h2 (by simp)
              · exact Or.inr h2
            | false =>
              right
              refine ⟨hb, ?_⟩
              rw [hremTC]
              exact nlRel_symm hstarR
        · subst h
          constructor
          · rw [hemitTC, hemitT,
              show (['\n'] : Bytes) ++ (c0 :: cs) = '\n' :: c0 :: cs from rfl]
          · rw [show (['\n'] : Bytes) ++ (c0 :: cs) = '\n' :: c0 :: cs from rfl]
            cases hb : hasSuffixNN (T ++ (c0 :: cs)) with
            | true =>
              left
              refine ⟨hb, ?_⟩
              rw [← hremTC, remOf_complete _ hb]
              left
              rfl
            | false =>
              right
              refine ⟨hb, ?_⟩
              rw [← hremTC]
              left
              rfl
  · -- T is incomplete: the remainder matches the held-back last segment
    -- up to a leading newline
    have hrem : remOf T = (splitNN T).getLastD [] := remOf_incomplete T hT
    have hsplit := splitNN_append T c
    have hflagL := flag_TC_eq T c hT
    obtain ⟨hemitTC, hremTC⟩ := truth_decompose T c _ hsplit hflagL
    have hemitT : emitOf T = (splitNN T).dropLast.filterMap processSSEEvent :=
      emitOf_incomplete T hT
    rw [hrem] at hr
    rcases hr with hr | hr | hr
    · subst hr
      constructor
      · rw [hemitTC, hemitT]
      · cases hb : hasSuffixNN (T ++ c) with
        | true =>
          left
          refine ⟨hb, ?_⟩
          rw [← hremTC, remOf_complete _ hb]
          left
          rfl
        | false =>
          right
          refine ⟨hb, ?_⟩
          rw [← hremTC]
          left
          rfl
    · have hrc : r ++ c = '\n' :: ((splitNN T).getLastD [] ++ c) := by
        rw [hr, List.cons_append]
      obtain ⟨hstarE, hstarR⟩ := star ((splitNN T).getLastD [] ++ c)
      constructor
      · rw [hemitTC, hemitT, hrc, hstarE]
      · rw [hrc]
        cases hb : hasSuffixNN (T ++ c) with
        | true =>
          left
          refine ⟨hb, ?_⟩
          have hz : remOf ((splitNN T).getLastD [] ++ c) = [] := by
            rw [← hremTC, remOf_complete _ hb]
          rw [hz] at hstarR
          rcases hstarR with h2 | h2 | h2
          · exact Or.inl h2
          · exact Or.inr h2
          · exact absurd h2 (by simp)
        | false =>
          right
          refine ⟨hb, ?_⟩
          rw [hremTC]
          exact hstarR
    · have hLrc : (splitNN T).getLastD [] ++ c = '\n' :: (r ++ c) := by
        rw [hr, List.cons_append]
      obtain ⟨hstarE, hstarR⟩ := star (r ++ c)
      constructor
      · rw [hemitTC, hemitT, hLrc, hstarE]
      · cases hb : hasSuffixNN (T ++ c) with
        | true =>
          left
          refine ⟨hb, ?_⟩
          have hz : remOf ('\n' :: (r ++ c)) = [] := by
            rw [← hLrc, ← hremTC, remOf_complete _ hb]
          rw [hz] at hstarR
          rcases hstarR with h2 | h2 | h2
          · exact Or.inl h2.symm
          · exact absurd h2 (by simp)
          · exact Or.inr h2
        | false =>
          right
          refine ⟨hb, ?_⟩
          rw [hremTC, hLrc]
          exact nlRel_symm hstarR

theorem relayStream_eq_foldl (chunks : List Bytes) :
    relayStream chunks = (chunks.foldl relayFoldStep ([], [])).1 := rfl

theorem foldRelay_acc : ∀ (cs : List Bytes) (acc : List Bytes) (r : Bytes),
    (cs.foldl relayFoldStep (acc, r)).1 =
      acc ++ (cs.foldl relayFoldStep ([], r)).1 ∧
    (cs.foldl relayFoldStep (acc, r)).2 = (cs.foldl relayFoldStep ([], r)).2 := by
  intro cs
  induction cs with
  | nil => intro acc r; exact ⟨by simp, rfl⟩
  | cons c cs2 ih =>
    intro acc r
    rw [List.foldl_cons, List.foldl_cons]
    rw [show relayFoldStep (acc, r) c =
        (acc ++ (relayReadChunk r c).1, (relayReadChunk r c).2) from rfl]
    rw [show relayFoldStep ([], r) c =
        (([] : List Bytes) ++ (relayReadChunk r c).1, (relayReadChunk r c).2) from rfl]
    obtain ⟨ih1, ih2⟩ := ih (acc ++ (relayReadChunk r c).1) (relayReadChunk r c).2
    obtain ⟨ih3, ih4⟩ := ih ([] ++ (relayReadChunk r c).1) (relayReadChunk r c).2
    constructor
    · rw [ih1, ih3]
      simp [List.append_assoc]
    · rw [ih2, ih4]

/-- Invariant of the read loop: folding any chunk sequence from a state
related to buffered text `T` emits exactly what the contiguous text
`T ++ join` adds over `T`, ending in a related state. -/
theorem foldRelay_inv : ∀ (cs : List Bytes) (T r : Bytes), StateRel T r →
    emitOf (T ++ cs.flatten) = emitOf T ++ (cs.foldl relayFoldStep ([], r)).1 ∧
    StateRel (T ++ cs.flatten) (cs.foldl relayFoldStep ([], r)).2 := by
  intro cs
  induction cs with
  | nil =>
    intro T r hrel
    rw [show ([] : List Bytes).flatten = [] from rfl, List.append_nil, List.foldl_nil]
    exact ⟨by simp, hrel⟩
  | cons c cs2 ih =>
    intro T r hrel
    obtain ⟨hstepE, hstepR⟩ := relay_step T r c hrel
    obtain ⟨ih1, ih2⟩ := ih (T ++ c) (remOf (r ++ c)) hstepR
    rw [List.foldl_cons]
    rw [show relayFoldStep ([], r) c = (emitOf (r ++ c), remOf (r ++ c)) from by
      unfold relayFoldStep
      rw [relayReadChunk_eq]
      dsimp only
      rw [List.nil_append]]
    obtain ⟨hacc1, hacc2⟩ := foldRelay_acc cs2 (emitOf (r ++ c)) (remOf (r ++ c))
    rw [show (c :: cs2).flatten = c ++ cs2.flatten from rfl, ← List.append_assoc]
    constructor
    · rw [ih1, hacc1, hstepE, List.append_assoc]
    · rw [hacc2]
      exact ih2

/-- The whole read loop emits exactly the complete segments of the joined
byte stream. -/
theorem relayStream_eq_emitOf (chunks : List Bytes) :
    relayStream chunks = emitOf chunks.flatten := by
  have h0 : StateRel [] [] := by
    right
    refine ⟨by decide, ?_⟩
    left
    decide
  obtain ⟨h1, _⟩ := foldRelay_inv chunks [] [] h0
  rw [List.nil_append] at h1
  rw [show emitOf ([] : Bytes) = [] from by decide, List.nil_append] at h1
  rw [relayStream_eq_foldl]
  exact h1.symm

/-- C5: the streaming relay is invariant under read-boundary chunking:
for every byte stream and every way of splitting it into read chunks, the
sequence of events emitted on the stream channel equals the sequence
emitted when the whole stream arrives in one contiguous read. -/
theorem c5_chunking_invariance (chunks : List Bytes) :
    relayStream chunks = relayStream [chunks.flatten] := by
  rw [relayStream_eq_emitOf chunks, relayStream_eq_emitOf [chunks.flatten]]
  rw [show ([chunks.flatten] : List Bytes).flatten = chunks.flatten from by simp]
